import Mathlib

/-!
A verification development for the dmcl language runtime.

The execution engine (`src/stac.rs`), the provider wire format
(`src/provider.rs`) and the struct-literal emission (`src/ast/compound.rs`)
are shallowly embedded below.  Modelling conventions:

* Rust `i64` is modelled as `Int` with two's-complement wrapping
  (`wrap64`) where the release-mode semantics wraps; `as usize` casts are
  modelled by reduction modulo `2 ^ 64` (`usizeOfI64`).
* Rust `f64` payloads are modelled as rationals (`ℚ`); the claims settled
  here do not depend on IEEE-754 rounding, NaN or infinities.
* Rust panics (`unwrap`, out-of-bounds indexing, explicit `panic!`) are
  modelled as the `.err` outcome of the step function.
* `Vec` used as a stack (push/pop at the back) is modelled as a `List`
  whose head is the back of the vector, so `push` is `cons` and `pop`
  takes the head.  `HashMap` is modelled as an association list; lookups
  take the first matching key.
* The host-supplied external-function registry is a list of named pure
  functions; each actual invocation of a registry function is recorded in
  an instrumentation field `extern_log`, which exists only to make the
  fact of an invocation observable in theorems.
-/

/-- Two's-complement wrap of an unbounded integer into the `i64` range. -/
def wrap64 (n : Int) : Int := (n + 2 ^ 63) % 2 ^ 64 - 2 ^ 63

/-- The value of an `i64` reinterpreted by `as usize` (Rust wraps modulo `2 ^ 64`). -/
def usizeOfI64 (n : Int) : Nat := (n % (2 ^ 64 : Int)).toNat

/-- `Label::CONTINUE`, the sentinel `usize::MAX` meaning fall-through. -/
def CONTINUE : Nat := 2 ^ 64 - 1

/-- `stac::DataType`: the static type tags. -/
inductive DataType where
  | Integer
  | Float
  | Bool
  | String
  | Array (elem : DataType)
  | Struct (name : String)
  | Waiting
  deriving DecidableEq

/-- `lexer::Token` (the subset of payloads is faithful; `f64` payloads are ℚ). -/
inductive Token where
  | C (c : Char)
  | Integer (i : Int)
  | Float (q : ℚ)
  | Word (w : String)
  | String (s : String)
  | Type (t : DataType)
  | If | Else | While | True | False | Func | Return | Struct | Extern
  | DeclAssign | BoolOr | BoolAnd | Eq | Ne | Le | Ge
  | EOF
  deriving DecidableEq

/-- `stac::DataVal`: tagged runtime values. -/
inductive DataVal where
  | Integer (i : Int)
  | Float (q : ℚ)
  | Bool (b : Bool)
  | String (s : String)
  | Compound (vals : List DataVal)
  | Waiting

/-- `DataVal::is_waiting`. -/
def is_waiting : DataVal → Bool
  | .Waiting => true
  | _ => false

/-- `stac::Struct`: ordered field types plus a name-to-slot map. -/
structure StructDef where
  types : List DataType
  names : List (String × Nat)
  deriving DecidableEq

/-- `stac::Instr`: the opcode set.  Addresses and labels are `Nat`. -/
inductive Instr where
  | BinaryExpr (op : Token)
  | Concat
  | UnaryExpr (op : Token)
  | LoadConst (v : DataVal)
  | LoadIdent (i : Nat)
  | StoreIdent (i : Nat)
  | IfExpr (if_true : Nat) (if_false : Nat)
  | Discard
  | CompoundGet
  | CompoundSet
  | CompoundCreate
  | Goto (label : Nat)
  | Call (label : Nat)
  | Return
  | ExternCall (param_types : List DataType) (return_types : List DataType)

/-- `stac::Function` (registered user functions; not consulted by `execute`). -/
structure FunctionDef where
  label : Nat
  params : List DataType
  returns : List DataType
  deriving DecidableEq

/-- The type of a host-registered external function: it receives the
call-site identity triple, the static parameter and return types, the
concrete parameter values and the struct table. -/
def ExternFn : Type :=
  (Nat × Nat × Nat) → List DataType → List DataType → List DataVal →
    List (String × StructDef) → List DataVal

/-- One recorded invocation of a registry function (instrumentation). -/
structure ExternEvent where
  name : String
  call_site : Nat × Nat
  call_count : Nat
  params : List DataVal

/-- `stac::Prog`: the program together with the whole engine state. -/
structure Prog where
  code : List (List Instr)
  entrypoint : Nat
  eval_stack : List DataVal
  vars : List DataVal  -- `variables` in the source; the name is reserved in Lean
  user_structs : List (String × StructDef)
  user_functions : List (String × FunctionDef)
  ip : Nat × Nat
  call_stack : List (Nat × Nat)
  cycles : Nat
  evaluating_side_effects : Bool
  blocks_to_eval : List Nat
  external_functions : List (String × ExternFn)
  extern_func_call_count : List (String × Nat)
  extern_log : List ExternEvent

/-- `DataVal::default_for`: the default value of a type, recursive zero-fill
for structs.  The `fuel` bounds recursion through the (possibly cyclic)
struct table; `none` models both the `panic!` on `Waiting` and exhaustion. -/
def default_for : Nat → DataType → List (String × StructDef) → Option DataVal
  | 0, _, _ => none
  | _ + 1, .Integer, _ => some (.Integer 0)
  | _ + 1, .Float, _ => some (.Float 0)
  | _ + 1, .Bool, _ => some (.Bool false)
  | _ + 1, .String, _ => some (.String "")
  | _ + 1, .Array _, _ => some (.Compound [])
  | fuel + 1, .Struct struct_name, user_structs =>
    match user_structs.lookup struct_name with
    | none => none
    | some strct =>
      (strct.names.foldlM
        (fun (compound : List DataVal) (kv : String × Nat) => do
          let d ← default_for fuel (← strct.types[kv.2]?) user_structs
          if kv.2 < compound.length then
            pure (compound.set kv.2 d)
          else
            none)
        (List.replicate strct.names.length (.Bool false))).map .Compound
  | _ + 1, .Waiting, _ => none

/-- Outcome of one iteration of the `'outer` loop of `Prog::execute`:
continue looping, terminate normally (`break` / `return`), or panic. -/
inductive StepRes where
  | next (m : Prog)
  | done (m : Prog)
  | err

/-- Advance the instruction pointer past the current instruction
(`self.ip.1 += 1` at the bottom of the loop). -/
def advance (m : Prog) : Prog := { m with ip := (m.ip.1, m.ip.2 + 1) }

/-- The operators the `BinaryExpr` arm dispatches on; any other token hits
`panic!("unimplemented operator for binary expression")`. -/
def isBinOp : Token → Bool
  | .C '+' | .C '-' | .C '*' | .C '/' => true
  | .Eq | .Ne | .C '<' | .Le | .C '>' | .Ge => true
  | _ => false

/-- The bodies of the `arith!` and `rel!` macros after the Waiting check:
`x` is the first pop (top of stack), `y` the second; the match is on `x`
and `y`'s tag must agree or the `unwrap` panics (`none`). -/
def binEval : Token → DataVal → DataVal → Option DataVal
  | .C '+', .Integer a, .Integer b => some (.Integer (wrap64 (a + b)))
  | .C '+', .Float a, .Float b => some (.Float (a + b))
  | .C '-', .Integer a, .Integer b => some (.Integer (wrap64 (a - b)))
  | .C '-', .Float a, .Float b => some (.Float (a - b))
  | .C '*', .Integer a, .Integer b => some (.Integer (wrap64 (a * b)))
  | .C '*', .Float a, .Float b => some (.Float (a * b))
  | .C '/', .Integer a, .Integer b =>
    if b = 0 ∨ (a = -(2 ^ 63) ∧ b = -1) then none
    else some (.Integer (Int.tdiv a b))
  | .C '/', .Float a, .Float b => some (.Float (a / b))
  | .Eq, .Integer a, .Integer b => some (.Bool (decide (a = b)))
  | .Eq, .Float a, .Float b => some (.Bool (decide (a = b)))
  | .Ne, .Integer a, .Integer b => some (.Bool (decide (a ≠ b)))
  | .Ne, .Float a, .Float b => some (.Bool (decide (a ≠ b)))
  | .C '<', .Integer a, .Integer b => some (.Bool (decide (a < b)))
  | .C '<', .Float a, .Float b => some (.Bool (decide (a < b)))
  | .Le, .Integer a, .Integer b => some (.Bool (decide (a ≤ b)))
  | .Le, .Float a, .Float b => some (.Bool (decide (a ≤ b)))
  | .C '>', .Integer a, .Integer b => some (.Bool (decide (b < a)))
  | .C '>', .Float a, .Float b => some (.Bool (decide (b < a)))
  | .Ge, .Integer a, .Integer b => some (.Bool (decide (b ≤ a)))
  | .Ge, .Float a, .Float b => some (.Bool (decide (b ≤ a)))
  | _, _, _ => none

/-- The normal-mode `match instr` of `Prog::execute` (cycle counter already
bumped).  Returns `.next` for every path that reaches `self.ip.1 += 1` or
executes `continue`, `.done` for `return`, `.err` for panics. -/
def normalExec (m : Prog) : Instr → StepRes
  | .BinaryExpr op =>
    if isBinOp op then
      match m.eval_stack with
      | x :: y :: rest =>
        if is_waiting x || is_waiting y then
          .next (advance { m with eval_stack := .Waiting :: rest })
        else
          match binEval op x y with
          | some v => .next (advance { m with eval_stack := v :: rest })
          | none => .err
      | _ => .err
    else .err
  | .Concat =>
    match m.eval_stack with
    | .String x :: .String y :: rest =>
      .next (advance { m with eval_stack := .String (x ++ y) :: rest })
    | _ => .err
  | .UnaryExpr op =>
    match op, m.eval_stack with
    | .C '-', .Integer i :: rest =>
      .next (advance { m with eval_stack := .Integer (wrap64 (-i)) :: rest })
    | .C '-', .Float q :: rest =>
      .next (advance { m with eval_stack := .Float (-q) :: rest })
    | .C '-', .Waiting :: rest =>
      .next (advance { m with eval_stack := .Waiting :: rest })
    | .C '!', .Bool b :: rest =>
      .next (advance { m with eval_stack := .Bool (!b) :: rest })
    | _, _ => .err
  | .LoadConst v => .next (advance { m with eval_stack := v :: m.eval_stack })
  | .LoadIdent i =>
    match m.vars[i]? with
    | some v => .next (advance { m with eval_stack := v :: m.eval_stack })
    | none => .err
  | .StoreIdent i =>
    match m.eval_stack with
    | v :: rest =>
      if i < m.vars.length then
        .next (advance { m with vars := m.vars.set i v, eval_stack := rest })
      else .err
    | [] => .err
  | .IfExpr if_true if_false =>
    match m.eval_stack with
    | .Bool b :: rest =>
      if b then
        if if_true ≠ CONTINUE then
          .next { m with eval_stack := rest, call_stack := m.ip :: m.call_stack,
                         ip := (if_true, 0) }
        else .next (advance { m with eval_stack := rest })
      else
        if if_false ≠ CONTINUE then
          .next { m with eval_stack := rest, call_stack := m.ip :: m.call_stack,
                         ip := (if_false, 0) }
        else .next (advance { m with eval_stack := rest })
    | .Waiting :: rest =>
      .next { m with eval_stack := rest,
                     evaluating_side_effects := true,
                     call_stack := m.ip :: m.call_stack,
                     ip := (if_true, 0),
                     blocks_to_eval := if_false :: m.blocks_to_eval }
    | _ => .err
  | .CompoundGet =>
    match m.eval_stack with
    | index :: arr :: rest =>
      if is_waiting index || is_waiting arr then
        .next (advance { m with eval_stack := .Waiting :: rest })
      else
        match arr, index with
        | .Compound l, .Integer i =>
          match l[usizeOfI64 i]? with
          | some v => .next (advance { m with eval_stack := v :: rest })
          | none => .err
        | _, _ => .err
    | _ => .err
  | .CompoundSet =>
    match m.eval_stack with
    | val :: index :: arr :: rest =>
      if is_waiting index || is_waiting arr then
        .next (advance { m with eval_stack := .Waiting :: rest })
      else
        match arr, index with
        | .Compound l, .Integer i =>
          if usizeOfI64 i < l.length then
            .next (advance
              { m with eval_stack := .Compound (l.set (usizeOfI64 i) val) :: rest })
          else .err
        | _, _ => .err
    | _ => .err
  | .CompoundCreate =>
    match m.eval_stack with
    | len :: rest =>
      if is_waiting len then
        .next (advance { m with eval_stack := .Waiting :: rest })
      else
        match len with
        | .Integer n =>
          .next (advance { m with
            eval_stack := .Compound (List.replicate (usizeOfI64 n) (.Bool false)) :: rest })
        | _ => .err
    | _ => .err
  | .Goto label => .next { m with call_stack := m.ip :: m.call_stack, ip := (label, 0) }
  | .Call label => .next { m with call_stack := m.ip :: m.call_stack, ip := (label, 0) }
  | .Return =>
    match m.call_stack with
    | fr :: rest => .next { m with call_stack := rest, ip := (fr.1, fr.2 + 1) }
    | [] => .done m
  | .Discard => .next (advance { m with eval_stack := m.eval_stack.tail })
  | .ExternCall param_types return_types =>
    match m.eval_stack with
    | .String func_name :: rest0 =>
      if param_types.length ≤ rest0.length then
        match m.call_stack with
        | [] => .err
        | call_site :: _ =>
          match m.external_functions.lookup func_name with
          | none => .err
          | some f =>
            let param_vals := (rest0.take param_types.length).reverse
            let call_count := (m.extern_func_call_count.lookup func_name).getD 0
            let returns := f (call_site.1, call_site.2, call_count) param_types
              return_types param_vals m.user_structs
            .next (advance { m with
              eval_stack := returns.reverse ++ rest0.drop param_types.length,
              extern_func_call_count := (func_name, call_count + 1) :: m.extern_func_call_count,
              extern_log := ⟨func_name, call_site, call_count, param_vals⟩ :: m.extern_log })
      else .err
    | _ => .err

/-- The side-effect-mode `match instr`: `StoreIdent` forces Waiting into its
target, branch instructions enqueue their targets, everything else is a
no-op.  The instruction pointer then advances. -/
def sideMatch (m : Prog) : Instr → StepRes
  | .StoreIdent i =>
    if i < m.vars.length then .next (advance { m with vars := m.vars.set i .Waiting })
    else .err
  | .IfExpr if_true if_false =>
    .next (advance { m with blocks_to_eval := if_false :: if_true :: m.blocks_to_eval })
  | .Goto label => .next (advance { m with blocks_to_eval := label :: m.blocks_to_eval })
  | .Call label => .next (advance { m with blocks_to_eval := label :: m.blocks_to_eval })
  | _ => .next (advance m)

/-- Result of the inner `while` loop of side-effect mode. -/
inductive DrainRes where
  | contOuter (m : Prog)
  | fall (m : Prog)
  | err

/-- The inner `while self.ip.1 >= self.code[self.ip.0].code.len()` loop of
side-effect mode, written with an explicit structural fuel so that it
computes: every iteration of the source loop removes one element from
`blocks_to_eval` or from `call_stack`, so the fuel chosen in `drain` below
can never run out (`drainF_fuel_irrelevant`). -/
def drainF : Nat → Prog → DrainRes
  | 0, _ => .err
  | fuel + 1, m =>
    match m.code[m.ip.1]? with
    | none => .err
    | some blk =>
      if m.ip.2 < blk.length then .fall m
      else
        match m.blocks_to_eval with
        | next :: rest =>
          if next = CONTINUE then drainF fuel { m with blocks_to_eval := rest }
          else .contOuter { m with blocks_to_eval := rest, ip := (next, 0) }
        | [] =>
          match m.call_stack with
          | [] => .err
          | fr :: rest =>
            drainF fuel { m with evaluating_side_effects := false,
                                 call_stack := rest, ip := fr }

lemma drainF_fuel_irrelevant (fuel1 fuel2 : Nat) (m : Prog)
    (h1 : m.blocks_to_eval.length + m.call_stack.length < fuel1)
    (h2 : m.blocks_to_eval.length + m.call_stack.length < fuel2) :
    drainF fuel1 m = drainF fuel2 m := by
  induction fuel1 generalizing fuel2 m with
  | zero => omega
  | succ f1 ih =>
    cases fuel2 with
    | zero => omega
    | succ f2 =>
      simp only [drainF]
      cases hcb : m.code[m.ip.1]? with
      | none => rfl
      | some blk =>
        by_cases hlt : m.ip.2 < blk.length
        · simp [hlt]
        · simp only [if_neg hlt]
          cases hq : m.blocks_to_eval with
          | cons next rest =>
            by_cases hc : next = CONTINUE
            · simp only [if_pos hc]
              exact ih f2 _ (by simp; rw [hq] at h1; simp at h1; omega)
                (by simp; rw [hq] at h2; simp at h2; omega)
            · simp [hc]
          | nil =>
            cases hcs : m.call_stack with
            | nil => rfl
            | cons fr rest =>
              exact ih f2 _ (by simp; rw [hcs] at h1; simp at h1; omega)
                (by simp; rw [hcs] at h2; simp at h2; omega)

/-- The inner `while` loop of side-effect mode (entry point). -/
def drain (m : Prog) : DrainRes :=
  drainF (m.blocks_to_eval.length + m.call_stack.length + 1) m

lemma drain_fall_eq (m : Prog) (blk : List Instr) (hcb : m.code[m.ip.1]? = some blk)
    (hlt : m.ip.2 < blk.length) : drain m = .fall m := by
  unfold drain
  simp only [drainF, hcb]
  rw [if_pos hlt]

lemma drain_err_none (m : Prog) (hcb : m.code[m.ip.1]? = none) : drain m = .err := by
  unfold drain
  simp only [drainF, hcb]

lemma drain_eq_drainF (fuel : Nat) (m : Prog)
    (hf : m.blocks_to_eval.length + m.call_stack.length < fuel) :
    drain m = drainF fuel m :=
  drainF_fuel_irrelevant _ fuel m (by omega) hf

lemma drainF_succ_skip (f : Nat) (m : Prog) (blk : List Instr) (rest : List Nat)
    (hcb : m.code[m.ip.1]? = some blk) (hge : ¬ m.ip.2 < blk.length)
    (hq : m.blocks_to_eval = CONTINUE :: rest) :
    drainF (f + 1) m = drainF f { m with blocks_to_eval := rest } := by
  simp [drainF, hcb, hq, hge]

lemma drainF_succ_exit (f : Nat) (m : Prog) (blk : List Instr) (fr : Nat × Nat)
    (rest : List (Nat × Nat))
    (hcb : m.code[m.ip.1]? = some blk) (hge : ¬ m.ip.2 < blk.length)
    (hq : m.blocks_to_eval = []) (hcs : m.call_stack = fr :: rest) :
    drainF (f + 1) m = drainF f { m with evaluating_side_effects := false,
                                         call_stack := rest, ip := fr,
                                         blocks_to_eval := [] } := by
  simp [drainF, hcb, hq, hcs, hge]

lemma drain_skip_eq (m : Prog) (blk : List Instr) (rest : List Nat)
    (hcb : m.code[m.ip.1]? = some blk) (hge : ¬ m.ip.2 < blk.length)
    (hq : m.blocks_to_eval = CONTINUE :: rest) :
    drain m = drain { m with blocks_to_eval := rest } := by
  rw [drain_eq_drainF (rest.length + m.call_stack.length + 1 + 1) m
    (by rw [hq]
        show rest.length + 1 + m.call_stack.length < rest.length + m.call_stack.length + 1 + 1
        omega)]
  rw [drainF_succ_skip (rest.length + m.call_stack.length + 1) m blk rest hcb hge hq]
  rfl

lemma drain_jump_eq (m : Prog) (blk : List Instr) (next : Nat) (rest : List Nat)
    (hcb : m.code[m.ip.1]? = some blk) (hge : ¬ m.ip.2 < blk.length)
    (hq : m.blocks_to_eval = next :: rest) (hne : next ≠ CONTINUE) :
    drain m = .contOuter { m with blocks_to_eval := rest, ip := (next, 0) } := by
  unfold drain
  simp only [drainF, hcb, hq, if_neg hge, if_neg hne]

lemma drain_exit_eq (m : Prog) (blk : List Instr) (fr : Nat × Nat)
    (rest : List (Nat × Nat))
    (hcb : m.code[m.ip.1]? = some blk) (hge : ¬ m.ip.2 < blk.length)
    (hq : m.blocks_to_eval = []) (hcs : m.call_stack = fr :: rest) :
    drain m = drain { m with evaluating_side_effects := false,
                             call_stack := rest, ip := fr } := by
  simp only [hq]
  rw [drain_eq_drainF (rest.length + 1 + 1) m
    (by rw [hq, hcs]
        show 0 + (rest.length + 1) < rest.length + 1 + 1
        omega)]
  rw [drainF_succ_exit (rest.length + 1) m blk fr rest hcb hge hq hcs]
  simp [drain]

lemma drain_err_empty (m : Prog) (blk : List Instr)
    (hcb : m.code[m.ip.1]? = some blk) (hge : ¬ m.ip.2 < blk.length)
    (hq : m.blocks_to_eval = []) (hcs : m.call_stack = []) : drain m = .err := by
  unfold drain
  simp only [drainF, hcb, hq, hcs, if_neg hge]

lemma drainF_preserved (fuel : Nat) (m m' : Prog)
    (h : drainF fuel m = .contOuter m' ∨ drainF fuel m = .fall m') :
    m'.code = m.code ∧ m'.entrypoint = m.entrypoint ∧
    m'.eval_stack = m.eval_stack ∧ m'.vars = m.vars ∧
    m'.user_structs = m.user_structs ∧ m'.user_functions = m.user_functions ∧
    m'.cycles = m.cycles ∧ m'.external_functions = m.external_functions ∧
    m'.extern_func_call_count = m.extern_func_call_count ∧
    m'.extern_log = m.extern_log := by
  induction fuel generalizing m with
  | zero =>
    rcases h with h | h <;> simp only [drainF] at h <;> exact DrainRes.noConfusion h
  | succ f ih =>
    simp only [drainF] at h
    cases hcb : m.code[m.ip.1]? with
    | none =>
      simp only [hcb] at h
      rcases h with h | h <;> exact DrainRes.noConfusion h
    | some blk =>
      simp only [hcb] at h
      by_cases hlt : m.ip.2 < blk.length
      · simp only [if_pos hlt] at h
        rcases h with h | h
        · exact DrainRes.noConfusion h
        · injection h with h
          subst h
          exact ⟨rfl, rfl, rfl, rfl, rfl, rfl, rfl, rfl, rfl, rfl⟩
      · simp only [if_neg hlt] at h
        cases hq : m.blocks_to_eval with
        | cons next rest =>
          simp only [hq] at h
          by_cases hc : next = CONTINUE
          · simp only [if_pos hc] at h
            exact ih { m with blocks_to_eval := rest } h
          · simp only [if_neg hc] at h
            rcases h with h | h
            · injection h with h
              subst h
              exact ⟨rfl, rfl, rfl, rfl, rfl, rfl, rfl, rfl, rfl, rfl⟩
            · exact DrainRes.noConfusion h
        | nil =>
          simp only [hq] at h
          cases hcs : m.call_stack with
          | nil =>
            simp only [hcs] at h
            rcases h with h | h <;> exact DrainRes.noConfusion h
          | cons fr rest =>
            simp only [hcs] at h
            exact ih { m with evaluating_side_effects := false,
                              call_stack := rest, ip := fr,
                              blocks_to_eval := [] } h

lemma drain_preserved (m m' : Prog)
    (h : drain m = .contOuter m' ∨ drain m = .fall m') :
    m'.code = m.code ∧ m'.entrypoint = m.entrypoint ∧
    m'.eval_stack = m.eval_stack ∧ m'.vars = m.vars ∧
    m'.user_structs = m.user_structs ∧ m'.user_functions = m.user_functions ∧
    m'.cycles = m.cycles ∧ m'.external_functions = m.external_functions ∧
    m'.extern_func_call_count = m.extern_func_call_count ∧
    m'.extern_log = m.extern_log :=
  drainF_preserved _ m m' h

/-- Execute one already-fetched instruction: bump the cycle counter, stop at
the step ceiling, then dispatch on the mode. -/
def execInstr (m : Prog) (instr : Instr) : StepRes :=
  let m1 := { m with cycles := m.cycles + 1 }
  if 1000 < m1.cycles then .done m1
  else if m1.evaluating_side_effects then
    match drain m1 with
    | .contOuter m2 => .next m2
    | .fall m2 => sideMatch m2 instr
    | .err => .err
  else normalExec m1 instr

/-- One iteration of the `'outer` loop: fetch the current instruction (a
synthetic `Return` past the end of a non-entry block; `break` at the end of
the entry block), then execute it. -/
def step (m : Prog) : StepRes :=
  match m.code[m.ip.1]? with
  | none => .err
  | some blk =>
    if blk.length ≤ m.ip.2 then
      if m.ip.1 = m.entrypoint then .done m
      else execInstr m .Return
    else
      match blk[m.ip.2]? with
      | some instr => execInstr m instr
      | none => .err

/-- The real (not synthesized) instruction under the instruction pointer. -/
def fetchInstr (m : Prog) : Option Instr := do
  let blk ← m.code[m.ip.1]?
  blk[m.ip.2]?

/-- Iterate `step` `n` times; `none` once the loop has stopped (normal
termination or panic) strictly before the `n`-th iteration. -/
def steps : Nat → Prog → Option Prog
  | 0, m => some m
  | n + 1, m =>
    match step m with
    | .next m' => steps n m'
    | _ => none

/-- Final outcome of running the `'outer` loop with the given fuel. -/
inductive RunRes where
  | done (m : Prog)
  | err
  | fuelOut

/-- Run the `'outer` loop to completion, with fuel (the fuel is an artifact
of the embedding; `execute_terminates` shows `1002` always suffices from a
fresh cycle counter). -/
def run : Nat → Prog → RunRes
  | 0, _ => .fuelOut
  | n + 1, m =>
    match step m with
    | .next m' => run n m'
    | .done m' => .done m'
    | .err => .err

/-- `Prog::execute`, entered as the source does by resetting the
instruction pointer to the entrypoint. -/
def Prog.execute (m : Prog) : RunRes :=
  run 1002 { m with ip := (m.entrypoint, 0) }

/-- A blank engine state, used to build concrete machines in witnesses. -/
def emptyProg : Prog :=
  { code := [], entrypoint := 0, eval_stack := [], vars := [],
    user_structs := [], user_functions := [], ip := (0, 0), call_stack := [],
    cycles := 0, evaluating_side_effects := false, blocks_to_eval := [],
    external_functions := [], extern_func_call_count := [], extern_log := [] }

lemma step_fetch (m : Prog) (instr : Instr) (h : fetchInstr m = some instr) :
    step m = execInstr m instr := by
  unfold fetchInstr at h
  unfold step
  cases hcb : m.code[m.ip.1]? with
  | none => rw [hcb] at h; simp at h
  | some blk =>
    rw [hcb] at h
    simp only [Option.bind_eq_bind, Option.some_bind] at h
    have hlt : m.ip.2 < blk.length := by
      by_contra hge
      rw [List.getElem?_eq_none (by omega)] at h
      exact Option.noConfusion h
    simp only [hcb, h, if_neg (Nat.not_le.mpr hlt)]

lemma execInstr_normal (m : Prog) (instr : Instr) (hc : m.cycles ≤ 999)
    (hm : m.evaluating_side_effects = false) :
    execInstr m instr = normalExec { m with cycles := m.cycles + 1 } instr := by
  unfold execInstr
  simp only [if_neg (by simp; omega : ¬ 1000 < ({ m with cycles := m.cycles + 1 } : Prog).cycles)]
  simp [hm]

lemma step_falloff (m : Prog) (blk : List Instr) (hcb : m.code[m.ip.1]? = some blk)
    (hlen : blk.length ≤ m.ip.2) (hne : m.ip.1 ≠ m.entrypoint) :
    step m = execInstr m .Return := by
  unfold step
  rw [hcb]
  simp [hlen, hne]

/-- C10: executing a `Discard` instruction never fails, even on an empty
operand stack: it removes the top element when one exists (`List.tail` of
the stack), leaves the variable store and call stack unchanged, raises no
error, and execution proceeds to the next instruction. -/
theorem discard_total (m : Prog)
    (hmode : m.evaluating_side_effects = false)
    (hfetch : fetchInstr m = some .Discard)
    (hcycles : m.cycles ≤ 999) :
    ∃ m', step m = .next m' ∧
      m'.eval_stack = m.eval_stack.tail ∧
      m'.vars = m.vars ∧
      m'.call_stack = m.call_stack ∧
      m'.ip = (m.ip.1, m.ip.2 + 1) ∧
      m'.evaluating_side_effects = false := by
  rw [step_fetch m _ hfetch, execInstr_normal m _ hcycles hmode]
  exact ⟨_, rfl, rfl, rfl, rfl, rfl, hmode⟩

/-- Witness for C10 at a concrete machine whose operand stack is empty. -/
theorem discard_total_witness :
    ({ emptyProg with code := [[.Discard]] } : Prog).eval_stack = [] ∧
    ∃ m', step { emptyProg with code := [[.Discard]] } = .next m' ∧
      m'.eval_stack = ({ emptyProg with code := [[.Discard]] } : Prog).eval_stack.tail ∧
      m'.vars = ({ emptyProg with code := [[.Discard]] } : Prog).vars ∧
      m'.call_stack = ({ emptyProg with code := [[.Discard]] } : Prog).call_stack ∧
      m'.ip = (0, 1) ∧
      m'.evaluating_side_effects = false :=
  ⟨rfl, discard_total { emptyProg with code := [[.Discard]] } rfl rfl (by decide)⟩

/-- C6: normal-mode transfer discipline.  (1)/(2) `Goto`/`Call` push the
pre-transfer position and jump to instruction 0 of the target; (3)/(4) a
taken `IfExpr` arm does the same; (5) `Return` resumes immediately after
the position recorded on top of the call stack; (6) falling off the end of
a non-entry block behaves exactly as an explicit `Return`; (7)/(8) a
`Return` (explicit or implicit) with an empty call stack terminates. -/
theorem call_return_discipline :
    (∀ m l, m.evaluating_side_effects = false → m.cycles ≤ 999 →
      fetchInstr m = some (.Goto l) →
      step m = .next { m with cycles := m.cycles + 1,
                              call_stack := m.ip :: m.call_stack, ip := (l, 0) }) ∧
    (∀ m l, m.evaluating_side_effects = false → m.cycles ≤ 999 →
      fetchInstr m = some (.Call l) →
      step m = .next { m with cycles := m.cycles + 1,
                              call_stack := m.ip :: m.call_stack, ip := (l, 0) }) ∧
    (∀ m t f rest, m.evaluating_side_effects = false → m.cycles ≤ 999 →
      fetchInstr m = some (.IfExpr t f) → m.eval_stack = .Bool true :: rest →
      t ≠ CONTINUE →
      step m = .next { m with cycles := m.cycles + 1, eval_stack := rest,
                              call_stack := m.ip :: m.call_stack, ip := (t, 0) }) ∧
    (∀ m t f rest, m.evaluating_side_effects = false → m.cycles ≤ 999 →
      fetchInstr m = some (.IfExpr t f) → m.eval_stack = .Bool false :: rest →
      f ≠ CONTINUE →
      step m = .next { m with cycles := m.cycles + 1, eval_stack := rest,
                              call_stack := m.ip :: m.call_stack, ip := (f, 0) }) ∧
    (∀ m fr rest, m.evaluating_side_effects = false → m.cycles ≤ 999 →
      fetchInstr m = some .Return → m.call_stack = fr :: rest →
      step m = .next { m with cycles := m.cycles + 1,
                              call_stack := rest, ip := (fr.1, fr.2 + 1) }) ∧
    (∀ m blk, m.evaluating_side_effects = false → m.cycles ≤ 999 →
      m.code[m.ip.1]? = some blk → blk.length ≤ m.ip.2 → m.ip.1 ≠ m.entrypoint →
      step m = normalExec { m with cycles := m.cycles + 1 } .Return) ∧
    (∀ m, m.evaluating_side_effects = false → m.cycles ≤ 999 →
      fetchInstr m = some .Return → m.call_stack = [] →
      step m = .done { m with cycles := m.cycles + 1 }) ∧
    (∀ m blk, m.evaluating_side_effects = false → m.cycles ≤ 999 →
      m.code[m.ip.1]? = some blk → blk.length ≤ m.ip.2 → m.ip.1 ≠ m.entrypoint →
      m.call_stack = [] →
      step m = .done { m with cycles := m.cycles + 1 }) := by
  refine ⟨?_, ?_, ?_, ?_, ?_, ?_, ?_, ?_⟩
  · intro m l hm hc hf
    rw [step_fetch m _ hf, execInstr_normal m _ hc hm]
    rfl
  · intro m l hm hc hf
    rw [step_fetch m _ hf, execInstr_normal m _ hc hm]
    rfl
  · intro m t f rest hm hc hf hs hne
    rw [step_fetch m _ hf, execInstr_normal m _ hc hm]
    simp [normalExec, hs, hne]
  · intro m t f rest hm hc hf hs hne
    rw [step_fetch m _ hf, execInstr_normal m _ hc hm]
    simp [normalExec, hs, hne]
  · intro m fr rest hm hc hf hs
    rw [step_fetch m _ hf, execInstr_normal m _ hc hm]
    simp [normalExec, hs]
  · intro m blk hm hc hcb hlen hne
    rw [step_falloff m blk hcb hlen hne, execInstr_normal m _ hc hm]
  · intro m hm hc hf hs
    rw [step_fetch m _ hf, execInstr_normal m _ hc hm]
    simp [normalExec, hs]
  · intro m blk hm hc hcb hlen hne hs
    rw [step_falloff m blk hcb hlen hne, execInstr_normal m _ hc hm]
    simp [normalExec, hs]

/-- Witness for C6: each conjunct applied at a concrete two-block machine. -/
theorem call_return_discipline_witness :
    (step { emptyProg with code := [[.Goto 1], [.Return]] } =
      .next { emptyProg with code := [[.Goto 1], [.Return]], cycles := 1,
                             call_stack := [(0, 0)], ip := (1, 0) }) ∧
    (step { emptyProg with code := [[.Return]], call_stack := [(5, 7)] } =
      .next { emptyProg with code := [[.Return]], cycles := 1,
                             call_stack := [], ip := (5, 8) }) ∧
    (step { emptyProg with code := [[], []], entrypoint := 0, ip := (1, 0) } =
      .done { emptyProg with code := [[], []], entrypoint := 0, ip := (1, 0),
                             cycles := 1 }) := by
  refine ⟨?_, ?_, ?_⟩
  · exact call_return_discipline.1 _ 1 rfl (by decide) rfl
  · exact call_return_discipline.2.2.2.2.1 _ (5, 7) [] rfl (by decide) rfl rfl
  · exact call_return_discipline.2.2.2.2.2.2.2 _ [] rfl (by decide) rfl (by decide) (by decide) rfl

lemma sideMatch_pres (m : Prog) (instr : Instr) (m' : Prog)
    (h : sideMatch m instr = .next m') :
    m'.code = m.code ∧ m'.entrypoint = m.entrypoint ∧
    m'.eval_stack = m.eval_stack ∧ m'.call_stack = m.call_stack ∧
    m'.cycles = m.cycles ∧
    m'.evaluating_side_effects = m.evaluating_side_effects ∧
    m'.external_functions = m.external_functions ∧
    m'.extern_func_call_count = m.extern_func_call_count ∧
    m'.extern_log = m.extern_log := by
  cases instr <;> simp only [sideMatch] at h
  case StoreIdent i =>
    split at h
    · injection h with h
      subst h
      exact ⟨rfl, rfl, rfl, rfl, rfl, rfl, rfl, rfl, rfl⟩
    · exact StepRes.noConfusion h
  all_goals
    injection h with h
    subst h
    exact ⟨rfl, rfl, rfl, rfl, rfl, rfl, rfl, rfl, rfl⟩

lemma sideMatch_next_cases (m : Prog) (instr : Instr) (m' : Prog)
    (h : sideMatch m instr = .next m') :
    (∃ i, instr = .StoreIdent i ∧ i < m.vars.length ∧
       m' = advance { m with vars := m.vars.set i .Waiting }) ∨
    (∃ t f, instr = .IfExpr t f ∧
       m' = advance { m with blocks_to_eval := f :: t :: m.blocks_to_eval }) ∨
    (∃ l, instr = .Goto l ∧
       m' = advance { m with blocks_to_eval := l :: m.blocks_to_eval }) ∨
    (∃ l, instr = .Call l ∧
       m' = advance { m with blocks_to_eval := l :: m.blocks_to_eval }) ∨
    ((∀ i, instr ≠ .StoreIdent i) ∧ (∀ t f, instr ≠ .IfExpr t f) ∧
     (∀ l, instr ≠ .Goto l) ∧ (∀ l, instr ≠ .Call l) ∧ m' = advance m) := by
  cases instr <;> simp only [sideMatch] at h
  case StoreIdent i =>
    split at h
    · injection h with h
      exact Or.inl ⟨i, rfl, by assumption, h.symm⟩
    · exact StepRes.noConfusion h
  case IfExpr t f =>
    injection h with h
    exact Or.inr (Or.inl ⟨t, f, rfl, h.symm⟩)
  case Goto l =>
    injection h with h
    exact Or.inr (Or.inr (Or.inl ⟨l, rfl, h.symm⟩))
  case Call l =>
    injection h with h
    exact Or.inr (Or.inr (Or.inr (Or.inl ⟨l, rfl, h.symm⟩)))
  all_goals
    injection h with h
    exact Or.inr (Or.inr (Or.inr (Or.inr
      ⟨fun i hi => Instr.noConfusion hi, fun t f hi => Instr.noConfusion hi,
       fun l hi => Instr.noConfusion hi, fun l hi => Instr.noConfusion hi, h.symm⟩)))

lemma normalExec_log (m : Prog) (instr : Instr) (m' : Prog)
    (h : normalExec m instr = .next m') :
    m'.extern_log = m.extern_log ∨ ∃ pt rt, instr = .ExternCall pt rt := by
  cases instr <;> simp only [normalExec] at h
  case ExternCall pt rt => exact Or.inr ⟨pt, rt, rfl⟩
  all_goals
    left
    repeat' split at h
    all_goals
      first
        | exact StepRes.noConfusion h
        | (injection h with h
           subst h
           rfl)

lemma normalExec_pres (m : Prog) (instr : Instr) (m' : Prog)
    (h : normalExec m instr = .next m') :
    m'.code = m.code ∧ m'.entrypoint = m.entrypoint ∧ m'.cycles = m.cycles ∧
    m'.user_structs = m.user_structs ∧ m'.user_functions = m.user_functions ∧
    m'.external_functions = m.external_functions := by
  cases instr <;> simp only [normalExec] at h
  all_goals
    repeat' split at h
    all_goals
      first
        | exact StepRes.noConfusion h
        | (injection h with h
           subst h
           exact ⟨rfl, rfl, rfl, rfl, rfl, rfl⟩)

lemma fetchInstr_of_getElem (m : Prog) (blk : List Instr) (instr : Instr)
    (hcb : m.code[m.ip.1]? = some blk) (hi : blk[m.ip.2]? = some instr) :
    fetchInstr m = some instr := by
  unfold fetchInstr
  rw [hcb]
  simpa using hi

lemma step_next_exec (m m' : Prog) (h : step m = .next m') :
    ∃ instr, execInstr m instr = .next m' ∧
      (fetchInstr m = some instr ∨ instr = .Return) := by
  unfold step at h
  split at h
  · exact StepRes.noConfusion h
  next blk hcb =>
    split at h
    · split at h
      · exact StepRes.noConfusion h
      · exact ⟨.Return, h, Or.inr rfl⟩
    · split at h
      next instr hi => exact ⟨instr, h, Or.inl (fetchInstr_of_getElem m blk instr hcb hi)⟩
      · exact StepRes.noConfusion h

lemma execInstr_next_side (m : Prog) (instr : Instr) (m' : Prog)
    (hm : m.evaluating_side_effects = true)
    (h : execInstr m instr = .next m') :
    m.cycles ≤ 999 ∧
    (drain { m with cycles := m.cycles + 1 } = .contOuter m' ∨
     ∃ m2, drain { m with cycles := m.cycles + 1 } = .fall m2 ∧
       sideMatch m2 instr = .next m') := by
  simp only [execInstr] at h
  split at h
  · exact StepRes.noConfusion h
  next hc =>
    refine ⟨by simp at hc; omega, ?_⟩
    split at h
    next m2 hd =>
      injection h with h
      subst h
      exact Or.inl hd
    next m2 hd => exact Or.inr ⟨m2, hd, h⟩
    · exact StepRes.noConfusion h

lemma execInstr_next_norm (m : Prog) (instr : Instr) (m' : Prog)
    (hm : m.evaluating_side_effects = false)
    (h : execInstr m instr = .next m') :
    m.cycles ≤ 999 ∧ normalExec { m with cycles := m.cycles + 1 } instr = .next m' := by
  simp only [execInstr] at h
  split at h
  · exact StepRes.noConfusion h
  next hc =>
    rw [if_neg (show ¬ (m.evaluating_side_effects = true) by simp [hm])] at h
    exact ⟨by simp at hc; omega, h⟩

lemma sideMatch_ne_done (m : Prog) (instr : Instr) (m' : Prog) :
    sideMatch m instr ≠ .done m' := by
  intro h
  cases instr <;> simp only [sideMatch] at h
  case StoreIdent i =>
    split at h
    · exact StepRes.noConfusion h
    · exact StepRes.noConfusion h
  all_goals exact StepRes.noConfusion h

lemma normalExec_done (m : Prog) (instr : Instr) (m' : Prog)
    (h : normalExec m instr = .done m') : m' = m := by
  cases instr <;> simp only [normalExec] at h
  all_goals
    repeat' split at h
    all_goals
      first
        | exact StepRes.noConfusion h
        | (injection h with h
           exact h.symm)

lemma execInstr_done_log (m : Prog) (instr : Instr) (m' : Prog)
    (h : execInstr m instr = .done m') : m'.extern_log = m.extern_log := by
  simp only [execInstr] at h
  split at h
  · injection h with h
    subst h
    rfl
  next hc =>
    split at h
    · split at h
      · exact StepRes.noConfusion h
      next m2 hd => exact absurd h (sideMatch_ne_done m2 instr m')
      · exact StepRes.noConfusion h
    · rw [normalExec_done _ _ _ h]

/-- C3: no external effect runs under speculation.  A step taken in
side-effect mode never extends the invocation log (no registry function is
invoked), a terminating step never extends it, and any step that does
extend it was executed in normal mode on a real `ExternCall` instruction. -/
theorem extern_invocations_only_normal_mode :
    (∀ m m', m.evaluating_side_effects = true → step m = .next m' →
      m'.extern_log = m.extern_log) ∧
    (∀ m m', step m = .done m' → m'.extern_log = m.extern_log) ∧
    (∀ m m', step m = .next m' → m'.extern_log ≠ m.extern_log →
      m.evaluating_side_effects = false ∧
      ∃ pt rt, fetchInstr m = some (.ExternCall pt rt)) := by
  have side : ∀ m m', m.evaluating_side_effects = true → step m = .next m' →
      m'.extern_log = m.extern_log := by
    intro m m' hm h
    obtain ⟨instr, he, -⟩ := step_next_exec m m' h
    obtain ⟨-, hcase⟩ := execInstr_next_side m instr m' hm he
    rcases hcase with hd | ⟨m2, hd, hs⟩
    · exact (drain_preserved _ _ (Or.inl hd)).2.2.2.2.2.2.2.2.2
    · exact ((sideMatch_pres m2 instr m' hs).2.2.2.2.2.2.2.2).trans
        ((drain_preserved _ _ (Or.inr hd)).2.2.2.2.2.2.2.2.2)
  refine ⟨side, ?_, ?_⟩
  · intro m m' h
    unfold step at h
    split at h
    · exact StepRes.noConfusion h
    next blk hcb =>
      split at h
      · split at h
        · injection h with h
          subst h
          rfl
        · exact execInstr_done_log _ _ _ h
      · split at h
        · exact execInstr_done_log _ _ _ h
        · exact StepRes.noConfusion h
  · intro m m' h hne
    cases hm : m.evaluating_side_effects with
    | true => exact absurd (side m m' hm h) hne
    | false =>
      refine ⟨rfl, ?_⟩
      obtain ⟨instr, he, hf⟩ := step_next_exec m m' h
      obtain ⟨-, hn⟩ := execInstr_next_norm m instr m' hm he
      rcases normalExec_log _ _ _ hn with hlog | ⟨pt, rt, hi⟩
      · exact absurd hlog hne
      · subst hi
        rcases hf with hf | hf
        · exact ⟨pt, rt, hf⟩
        · exact Instr.noConfusion hf

/-- Witness for C3: in side-effect mode an `ExternCall` instruction leaves
the invocation log unchanged (the registry function is not invoked). -/
theorem extern_invocations_only_normal_mode_witness :
    step { emptyProg with code := [[.ExternCall [] []]],
                          evaluating_side_effects := true } =
      .next (advance { emptyProg with code := [[.ExternCall [] []]],
                                      evaluating_side_effects := true, cycles := 1 }) ∧
    (advance { emptyProg with code := [[.ExternCall [] []]],
                              evaluating_side_effects := true,
                              cycles := 1 }).extern_log =
      ({ emptyProg with code := [[.ExternCall [] []]],
                        evaluating_side_effects := true } : Prog).extern_log :=
  ⟨rfl, extern_invocations_only_normal_mode.1 _ _ rfl rfl⟩

lemma step_next_cycles (m m' : Prog) (h : step m = .next m') :
    m'.cycles = m.cycles + 1 ∧ m.cycles ≤ 999 := by
  obtain ⟨instr, he, -⟩ := step_next_exec m m' h
  cases hm : m.evaluating_side_effects
  · obtain ⟨hc, hn⟩ := execInstr_next_norm m instr m' hm he
    exact ⟨(normalExec_pres _ _ _ hn).2.2.1, hc⟩
  · obtain ⟨hc, hcase⟩ := execInstr_next_side m instr m' hm he
    rcases hcase with hd | ⟨m2, hd, hs⟩
    · exact ⟨(drain_preserved _ _ (Or.inl hd)).2.2.2.2.2.2.1, hc⟩
    · exact ⟨((sideMatch_pres m2 instr m' hs).2.2.2.2.1).trans
        ((drain_preserved _ _ (Or.inr hd)).2.2.2.2.2.2.1), hc⟩

lemma steps_cycles_add (n : Nat) (m m' : Prog) (h : steps n m = some m') :
    m'.cycles = m.cycles + n := by
  induction n generalizing m with
  | zero =>
    injection h with h
    subst h
    rfl
  | succ k ih =>
    simp only [steps] at h
    split at h
    next m1 hs =>
      have := step_next_cycles m m1 hs
      have := ih m1 h
      omega
    · exact Option.noConfusion h

lemma steps_cycles_bound (n : Nat) (m m' : Prog) (h : steps n m = some m')
    (h0 : 1 ≤ n) : m'.cycles ≤ 1000 := by
  induction n generalizing m with
  | zero => omega
  | succ k ih =>
    simp only [steps] at h
    split at h
    next m1 hs =>
      obtain ⟨hc1, hc9⟩ := step_next_cycles m m1 hs
      cases k with
      | zero =>
        injection h with h
        subst h
        omega
      | succ k2 => exact ih m1 h (by omega)
    · exact Option.noConfusion h

lemma run_no_fuelOut (fuel : Nat) (m : Prog) (hf : 1002 ≤ m.cycles + fuel)
    (h1 : 1 ≤ fuel) : run fuel m ≠ .fuelOut := by
  induction fuel generalizing m with
  | zero => omega
  | succ k ih =>
    simp only [run]
    split
    next m1 hs =>
      obtain ⟨hc1, hc9⟩ := step_next_cycles m m1 hs
      exact ih m1 (by omega) (by omega)
    · exact fun hcon => RunRes.noConfusion hcon
    · exact fun hcon => RunRes.noConfusion hcon

lemma run_fuel_irrelevant (fuel1 : Nat) (fuel2 : Nat) (m : Prog)
    (ha : 1002 ≤ m.cycles + fuel1) (hb : 1 ≤ fuel1)
    (hc : 1002 ≤ m.cycles + fuel2) (hd : 1 ≤ fuel2) :
    run fuel1 m = run fuel2 m := by
  induction fuel1 generalizing fuel2 m with
  | zero => omega
  | succ k ih =>
    cases fuel2 with
    | zero => omega
    | succ k2 =>
      simp only [run]
      split
      next m1 hs =>
        obtain ⟨hc1, hc9⟩ := step_next_cycles m m1 hs
        exact ih k2 m1 (by omega) (by omega) (by omega) (by omega)
      · rfl
      · rfl

/-- C5: `execute` terminates for every program.  With a fresh cycle counter
the fuel `1002` is never exhausted and any larger fuel gives the same
outcome (genuine termination); at most 1000 loop iterations execute an
instruction (each surviving iteration increments `cycles` once and no
iteration survives past 1000); and once the counter has reached the
ceiling, the very next fetched instruction makes `step` return `.done` —
the same constructor produced by normal completion, with no error
indication and no distinct outcome value. -/
theorem execute_terminates :
    (∀ m, m.cycles = 0 → Prog.execute m ≠ .fuelOut) ∧
    (∀ m fuel, m.cycles = 0 → 1002 ≤ fuel →
      run fuel { m with ip := (m.entrypoint, 0) } = Prog.execute m) ∧
    (∀ n m m', steps n m = some m' → m'.cycles = m.cycles + n) ∧
    (∀ n m m', steps n m = some m' → m.cycles = 0 → n ≤ 1000) ∧
    (∀ m blk, 1000 ≤ m.cycles → m.code[m.ip.1]? = some blk →
      (m.ip.2 < blk.length ∨ m.ip.1 ≠ m.entrypoint) →
      step m = .done { m with cycles := m.cycles + 1 }) := by
  refine ⟨?_, ?_, fun n m m' h => steps_cycles_add n m m' h, ?_, ?_⟩
  · intro m h0
    unfold Prog.execute
    apply run_no_fuelOut
    · exact Nat.le_add_left 1002 _
    · omega
  · intro m fuel h0 hf
    unfold Prog.execute
    apply run_fuel_irrelevant
    · exact le_trans hf (Nat.le_add_left fuel _)
    · omega
    · exact Nat.le_add_left 1002 _
    · omega
  · intro n m m' h h0
    cases n with
    | zero => omega
    | succ k =>
      have := steps_cycles_add _ m m' h
      have := steps_cycles_bound _ m m' h (by omega)
      omega
  · intro m blk hcyc hcb hpos
    have hdone : execInstr m .Return = .done { m with cycles := m.cycles + 1 } ∧
        ∀ instr, execInstr m instr = .done { m with cycles := m.cycles + 1 } := by
      constructor
      · simp only [execInstr]
        split
        · rfl
        next hcon =>
          exfalso
          apply hcon
          show 1000 < m.cycles + 1
          omega
      · intro instr
        simp only [execInstr]
        split
        · rfl
        next hcon =>
          exfalso
          apply hcon
          show 1000 < m.cycles + 1
          omega
    unfold step
    simp only [hcb]
    by_cases hlen : blk.length ≤ m.ip.2
    · rw [if_pos hlen]
      rcases hpos with hpos | hpos
      · omega
      · rw [if_neg hpos]
        exact hdone.1
    · rw [if_neg hlen]
      cases hi : blk[m.ip.2]? with
      | some instr => exact hdone.2 instr
      | none => exact absurd (List.getElem?_eq_none_iff.mp hi) hlen

/-- Witness for C5: a one-block program whose only instruction jumps to
itself runs forever in source terms, yet `execute` returns `.done`; and a
`step` at the ceiling returns `.done` exactly like normal completion. -/
theorem execute_terminates_witness :
    Prog.execute { emptyProg with code := [[.Goto 0]] } ≠ .fuelOut ∧
    step { emptyProg with code := [[.Goto 0]], cycles := 1000 } =
      .done { emptyProg with code := [[.Goto 0]], cycles := 1001 } :=
  ⟨execute_terminates.1 _ rfl,
   execute_terminates.2.2.2.2 { emptyProg with code := [[.Goto 0]], cycles := 1000 }
     [.Goto 0] (by decide) rfl (Or.inl (by decide))⟩

/-- C1 (code bug): contagion fails for `Concat` and boolean-not.  Executing
`Concat` with a Waiting operand on the stack panics in
`into_string().unwrap()` (modelled `.err`) instead of pushing Waiting, and
`UnaryExpr('!')` on Waiting panics in its catch-all arm — contrary to the
documented invariant that every operator is contagious on Waiting.  The
sibling operations do check Waiting first, so the omission is a slip. -/
theorem concat_and_not_panic_on_waiting :
    step { emptyProg with code := [[.Concat]],
                          eval_stack := [.Waiting, .String "a"] } = .err ∧
    step { emptyProg with code := [[.Concat]],
                          eval_stack := [.String "a", .Waiting] } = .err ∧
    step { emptyProg with code := [[.UnaryExpr (.C '!')]],
                          eval_stack := [.Waiting] } = .err :=
  ⟨rfl, rfl, rfl⟩

/-- The program used to refute C4: the entry block branches on a Waiting
condition; block 1 ends in `Goto 1`, so the sweep's work queue receives
block 1 again every time block 1 is scanned. -/
def loopSweepProg : Prog :=
  { emptyProg with code := [[.LoadConst .Waiting, .IfExpr 1 CONTINUE], [.Goto 1]] }

/-- Counterexample to C4: within a single sweep (side-effect mode is active
continuously from step 2 through step 4), block 1 is visited — scanned from
instruction index 0 — at steps 2 and 4, i.e. more than once. -/
theorem block_revisited_within_one_sweep :
    (∃ m2, steps 2 loopSweepProg = some m2 ∧ m2.ip = (1, 0) ∧
      m2.evaluating_side_effects = true) ∧
    (∃ m3, steps 3 loopSweepProg = some m3 ∧ m3.evaluating_side_effects = true) ∧
    (∃ m4, steps 4 loopSweepProg = some m4 ∧ m4.ip = (1, 0) ∧
      m4.evaluating_side_effects = true) :=
  ⟨⟨_, rfl, rfl, rfl⟩, ⟨_, rfl, rfl⟩, ⟨_, rfl, rfl, rfl⟩⟩

lemma fetchInstr_elim (m : Prog) (instr : Instr) (h : fetchInstr m = some instr) :
    ∃ blk, m.code[m.ip.1]? = some blk ∧ blk[m.ip.2]? = some instr ∧
      m.ip.2 < blk.length := by
  unfold fetchInstr at h
  cases hcb : m.code[m.ip.1]? with
  | none => rw [hcb] at h; simp at h
  | some blk =>
    rw [hcb] at h
    simp only [Option.bind_eq_bind, Option.some_bind] at h
    have hlt : m.ip.2 < blk.length := by
      by_contra hge
      rw [List.getElem?_eq_none (by omega)] at h
      exact Option.noConfusion h
    exact ⟨blk, rfl, h, hlt⟩

lemma execInstr_side_fall (m : Prog) (instr : Instr)
    (hm : m.evaluating_side_effects = true) (hc : m.cycles ≤ 999)
    (blk : List Instr) (hcb : m.code[m.ip.1]? = some blk)
    (hlt : m.ip.2 < blk.length) :
    execInstr m instr = sideMatch { m with cycles := m.cycles + 1 } instr := by
  simp only [execInstr]
  rw [if_neg (show ¬ 1000 < ({ m with cycles := m.cycles + 1 } : Prog).cycles from by
        show ¬ 1000 < m.cycles + 1
        omega)]
  rw [if_pos (show ({ m with cycles := m.cycles + 1 } : Prog).evaluating_side_effects = true
        from hm)]
  rw [drain_fall_eq { m with cycles := m.cycles + 1 } blk hcb hlt]

/-- C4 (amended): in side-effect mode, `Goto` and `Call` targets are
enqueued onto the work queue rather than jumped to — scanning continues in
the current block — but since the queue has no visited-set, a block can be
enqueued and visited more than once during one sweep (bounded only by the
step ceiling). -/
theorem goto_call_enqueued_in_side_mode :
    (∀ m l, m.evaluating_side_effects = true → m.cycles ≤ 999 →
      fetchInstr m = some (.Goto l) →
      step m = .next (advance { m with cycles := m.cycles + 1,
                                       blocks_to_eval := l :: m.blocks_to_eval })) ∧
    (∀ m l, m.evaluating_side_effects = true → m.cycles ≤ 999 →
      fetchInstr m = some (.Call l) →
      step m = .next (advance { m with cycles := m.cycles + 1,
                                       blocks_to_eval := l :: m.blocks_to_eval })) := by
  constructor
  all_goals
    intro m l hm hc hf
    obtain ⟨blk, hcb, hi, hlt⟩ := fetchInstr_elim m _ hf
    rw [step_fetch m _ hf, execInstr_side_fall m _ hm hc blk hcb hlt]
    rfl

/-- Witness for the amended C4 at a concrete machine. -/
theorem goto_call_enqueued_in_side_mode_witness :
    step { emptyProg with code := [[.Goto 1], []],
                          evaluating_side_effects := true } =
      .next (advance { emptyProg with code := [[.Goto 1], []],
                                      evaluating_side_effects := true,
                                      cycles := 1, blocks_to_eval := [1] }) :=
  goto_call_enqueued_in_side_mode.1
    { emptyProg with code := [[.Goto 1], []], evaluating_side_effects := true }
    1 rfl (by decide) rfl

/-- The serde data model as produced/consumed by `serde_json`: integer and
floating number tokens are distinct (`serialize_i64` emits an integer
token, `serialize_f64` always a float token). -/
inductive Json where
  | int (n : Int)
  | flt (q : ℚ)
  | bool (b : Bool)
  | str (s : String)
  | arr (elems : List Json)
  | obj (entries : List (String × Json))

/-- The JSON object `{"$waiting": true}`. -/
def waitingJson : Json := .obj [("$waiting", .bool true)]

/-- Rust `v as i64` on an `f64`: truncate toward zero, saturating. -/
def f64ToI64 (q : ℚ) : Int :=
  max (-(2 ^ 63)) (min (2 ^ 63 - 1) (if q < 0 then Int.ceil q else Int.floor q))

/-- One entry of the serialized form of a struct value: the slot index is
reverse-looked-up in `names` (`unwrap` panics if absent, modelled `none`),
the field type fetched from `types` (index panic modelled `none`). -/
def serStructEntry (ser : DataType → DataVal → Option Json)
    (st : StructDef) : Nat × DataVal → Option (String × Json) := fun p => do
  let kv ← st.names.find? (fun kv => kv.2 == p.1)
  let tyi ← st.types[p.1]?
  let j ← ser tyi p.2
  pure (kv.1, j)

/-- `impl Serialize for TypeAndVal`: serialization is directed by the
static `DataType`; the runtime value is projected with `unwrap` (a tag
mismatch panics, modelled `none`).  `fuel` bounds recursion through the
struct table. -/
def serializeTV : Nat → List (String × StructDef) → DataType → DataVal → Option Json
  | 0, _, _, _ => none
  | fuel + 1, us, ty, v =>
    match ty, v with
    | .Integer, .Integer i => some (.int i)
    | .Float, .Float q => some (.flt q)
    | .Bool, .Bool b => some (.bool b)
    | .String, .String s => some (.str s)
    | .Array el, .Compound l => (l.mapM (serializeTV fuel us el)).map .arr
    | .Struct name, .Compound l =>
      match us.lookup name with
      | none => none
      | some st =>
        (l.enum.mapM (serStructEntry (serializeTV fuel us) st)).map .obj
    | .Waiting, _ => some waitingJson
    | _, _ => none

/-- The non-struct `visit_map` branch: every entry must deserialize as a
`(String, bool)` pair equal to `("$waiting", true)`; an empty object also
yields Waiting (the loop body never runs). -/
def objWaiting : List (String × Json) → Option DataVal
  | [] => some .Waiting
  | (k, .bool v) :: rest =>
    if k = "$waiting" ∧ v = true then objWaiting rest else none
  | _ => none

/-- The struct `visit_map` loop: `arr` starts as `Bool(false)` placeholders;
a `"$waiting"` key short-circuits to Waiting; unknown keys are discarded;
known keys deserialize at the field type and overwrite slot `names[k]`. -/
def structFoldWith (des : DataType → Json → Option DataVal) (st : StructDef) :
    List (String × Json) → List DataVal → Option DataVal
  | [], arr => some (.Compound arr)
  | (k, jv) :: rest, arr =>
    if k = "$waiting" then some .Waiting
    else
      match st.names.lookup k with
      | none => structFoldWith des st rest arr
      | some i =>
        match st.types[i]? with
        | none => none
        | some tyi =>
          match des tyi jv with
          | none => none
          | some v =>
            if i < arr.length then structFoldWith des st rest (arr.set i v)
            else none

/-- `TypeAndValVisitor`: deserialization of one JSON value against an
expected `DataType` (`deserialize_any` dispatches on the input token). -/
def deserializeTV : Nat → List (String × StructDef) → DataType → Json → Option DataVal
  | 0, _, _, _ => none
  | fuel + 1, us, ty, j =>
    match j with
    | .int v =>
      match ty with
      | .Integer => some (.Integer v)
      | .Float => some (.Float (v : ℚ))
      | _ => none
    | .flt v =>
      match ty with
      | .Integer => some (.Integer (f64ToI64 v))
      | .Float => some (.Float v)
      | _ => none
    | .bool b =>
      match ty with
      | .Bool => some (.Bool b)
      | _ => none
    | .str s =>
      match ty with
      | .String => some (.String s)
      | _ => none
    | .arr l =>
      match ty with
      | .Array el => (l.mapM (deserializeTV fuel us el)).map .Compound
      | _ => none
    | .obj entries =>
      match ty with
      | .Struct name =>
        match us.lookup name with
        | none => none
        | some st =>
          structFoldWith (fun tyi jv => deserializeTV fuel us tyi jv) st entries
            (List.replicate st.types.length (.Bool false))
      | _ => objWaiting entries

/-- Consistency of one struct-table entry: the name map is a bijection
between distinct field names and the slots of `types`, and no field is
named like the `"$waiting"` sentinel (field names come from identifier
tokens, which cannot contain `$`). -/
def structOK (st : StructDef) : Bool :=
  decide (st.names.map Prod.fst).Nodup &&
  decide (st.names.map Prod.snd).Nodup &&
  st.names.all (fun kv => decide (kv.2 < st.types.length) && (kv.1 != "$waiting")) &&
  (List.range st.types.length).all
    (fun i => (st.names.find? (fun kv => kv.2 == i)).isSome)

/-- A `DataVal` is well-typed against a `DataType` (no Waiting anywhere,
struct values match a consistent table entry slot for slot). -/
def wellTyped : Nat → List (String × StructDef) → DataType → DataVal → Bool
  | 0, _, _, _ => false
  | fuel + 1, us, ty, v =>
    match ty, v with
    | .Integer, .Integer _ => true
    | .Float, .Float _ => true
    | .Bool, .Bool _ => true
    | .String, .String _ => true
    | .Array el, .Compound l => l.all (fun x => wellTyped fuel us el x)
    | .Struct name, .Compound l =>
      match us.lookup name with
      | none => false
      | some st =>
        structOK st && (l.length == st.types.length) &&
        ((st.types.zip l).all (fun p => wellTyped fuel us p.1 p.2))
    | _, _ => false

/-- Counterexample to C8: a parameter whose runtime value is Waiting but
whose static `DataType` is `Integer` does not serialize to
`{"$waiting": true}` — serialization panics in `into_integer().unwrap()`
(modelled `none`), because `TypeAndVal::serialize` dispatches on the static
type, not the runtime value. -/
theorem waiting_value_under_integer_type_fails :
    serializeTV 1 [] .Integer .Waiting = none ∧
    serializeTV 2 [] .Integer .Waiting = none :=
  ⟨rfl, rfl⟩

lemma lookup_eq_of_mem_nodup {β : Type} (l : List (String × β)) (k : String) (v : β)
    (hm : (k, v) ∈ l) (hnd : (l.map Prod.fst).Nodup) : l.lookup k = some v := by
  induction l with
  | nil => cases hm
  | cons p rest ih =>
    simp only [List.map_cons, List.nodup_cons] at hnd
    rcases List.mem_cons.mp hm with heq | hmem
    · rw [← heq]
      simp [List.lookup]
    · have hk : k ≠ p.1 := by
        intro hkeq
        exact hnd.1 (hkeq ▸ List.mem_map.mpr ⟨(k, v), hmem, rfl⟩)
      rw [List.lookup]
      cases p with
      | mk pk pv =>
        simp only
        rw [show (k == pk) = false from beq_eq_false_iff_ne.mpr hk]
        exact ih hmem hnd.2

lemma mapM_round {α β : Type} (f : α → Option β) (g : β → Option α) (l : List α)
    (h : ∀ x ∈ l, ∃ j, f x = some j ∧ g j = some x) :
    ∃ js, l.mapM f = some js ∧ js.mapM g = some l := by
  induction l with
  | nil => exact ⟨[], rfl, rfl⟩
  | cons x xs ih =>
    obtain ⟨j, hf, hg⟩ := h x (List.mem_cons_self x xs)
    obtain ⟨js, hfs, hgs⟩ := ih fun y hy => h y (List.mem_cons_of_mem x hy)
    refine ⟨j :: js, ?_, ?_⟩
    · rw [List.mapM_cons, hf, hfs]
      rfl
    · rw [List.mapM_cons, hg, hgs]
      rfl

lemma take_set_succ {α : Type} (arr : List α) (c : Nat) (x : α) (h : c < arr.length) :
    (arr.set c x).take (c + 1) = arr.take c ++ [x] := by
  induction arr generalizing c with
  | nil => simp at h
  | cons a rest ih =>
    cases c with
    | zero => simp
    | succ c2 =>
      simp only [List.set_cons_succ, List.take_succ_cons, List.cons_append]
      rw [ih c2 (by simpa using h)]

lemma structOK_find (st : StructDef) (hok : structOK st = true) (i : Nat)
    (hi : i < st.types.length) :
    ∃ kv, st.names.find? (fun kv => kv.2 == i) = some kv ∧ kv.2 = i ∧
      kv.1 ≠ "$waiting" ∧ st.names.lookup kv.1 = some i := by
  simp only [structOK, Bool.and_eq_true, decide_eq_true_eq, List.all_eq_true] at hok
  obtain ⟨⟨⟨hnk, hnv⟩, hrange⟩, hfull⟩ := hok
  obtain ⟨kv, hkv⟩ := Option.isSome_iff_exists.mp (hfull i (List.mem_range.mpr hi))
  have hmem := List.mem_of_find?_eq_some hkv
  have hkv2 : kv.2 = i := by simpa using List.find?_some hkv
  have hne : kv.1 ≠ "$waiting" := by
    have := hrange kv hmem
    simp only [Bool.and_eq_true, decide_eq_true_eq, bne_iff_ne] at this
    exact this.2
  refine ⟨kv, hkv, hkv2, hne, ?_⟩
  rw [← hkv2]
  exact lookup_eq_of_mem_nodup st.names kv.1 kv.2 (by simpa using hmem) hnk

lemma struct_fields_round (fuel : Nat) (us : List (String × StructDef)) (st : StructDef)
    (hok : structOK st = true)
    (IH : ∀ ty v, wellTyped fuel us ty v = true →
      ∃ j, serializeTV fuel us ty v = some j ∧ deserializeTV fuel us ty j = some v)
    (xs : List DataVal) :
    ∀ (c : Nat) (arr : List DataVal),
      c + xs.length = st.types.length →
      arr.length = st.types.length →
      ((st.types.drop c).zip xs).all (fun p => wellTyped fuel us p.1 p.2) = true →
      ∃ es, (xs.enumFrom c).mapM (serStructEntry (serializeTV fuel us) st) = some es ∧
        structFoldWith (fun tyi jv => deserializeTV fuel us tyi jv) st es arr =
          some (.Compound (arr.take c ++ xs)) := by
  induction xs with
  | nil =>
    intro c arr hc harr hwt
    refine ⟨[], rfl, ?_⟩
    simp only [structFoldWith, List.append_nil]
    rw [show c = arr.length by simp only [List.length_nil] at hc; omega, List.take_length]
  | cons x rest ih =>
    intro c arr hc harr hwt
    have hclen : c < st.types.length := by
      simp only [List.length_cons] at hc
      omega
    obtain ⟨kv, hfind, hkv2, hkne, hlook⟩ := structOK_find st hok c hclen
    have htyc : st.types[c]? = some st.types[c] := List.getElem?_eq_getElem hclen
    rw [List.drop_eq_getElem_cons hclen] at hwt
    simp only [List.zip_cons_cons, List.all_cons, Bool.and_eq_true] at hwt
    obtain ⟨hwx, hwrest⟩ := hwt
    obtain ⟨j, hser, hdes⟩ := IH _ x hwx
    obtain ⟨es, hmapM, hfold⟩ := ih (c + 1) (arr.set c x)
      (by simp only [List.length_cons] at hc; omega)
      (by simpa using harr) hwrest
    refine ⟨(kv.1, j) :: es, ?_, ?_⟩
    · rw [show (x :: rest).enumFrom c = (c, x) :: rest.enumFrom (c + 1) from rfl]
      rw [List.mapM_cons]
      rw [show serStructEntry (serializeTV fuel us) st (c, x) = some (kv.1, j) from by
        simp only [serStructEntry, hfind, htyc, hser, Option.bind_eq_bind,
          Option.some_bind]
        rfl]
      rw [hmapM]
      rfl
    · simp only [structFoldWith, if_neg hkne, hlook, htyc, hdes]
      rw [if_pos (by omega : c < arr.length)]
      rw [hfold, take_set_succ arr c x (by omega)]
      simp

/-- C7: provider round trip.  (1) Serializing any well-typed `DataVal`
against its `DataType` (consistent struct table, possibly nested structs)
and deserializing the produced JSON against the same type is the identity.
(2) `{"$waiting": true}` deserializes to the Waiting marker against every
expected `DataType` (for a struct type the table entry must exist, since
the visitor indexes the table before looking at keys). -/
theorem provider_round_trip :
    (∀ fuel us ty v, wellTyped fuel us ty v = true →
      ∃ j, serializeTV fuel us ty v = some j ∧ deserializeTV fuel us ty j = some v) ∧
    (∀ fuel us ty, 1 ≤ fuel →
      (∀ name, ty = .Struct name → (us.lookup name).isSome) →
      deserializeTV fuel us ty waitingJson = some .Waiting) := by
  constructor
  · intro fuel
    induction fuel with
    | zero =>
      intro us ty v h
      simp [wellTyped] at h
    | succ f ih =>
      intro us ty v h
      cases ty with
      | Integer =>
        cases v <;> simp [wellTyped] at h
        case Integer i => exact ⟨.int i, rfl, rfl⟩
      | Float =>
        cases v <;> simp [wellTyped] at h
        case Float q => exact ⟨.flt q, rfl, rfl⟩
      | Bool =>
        cases v <;> simp [wellTyped] at h
        case Bool b => exact ⟨.bool b, rfl, rfl⟩
      | String =>
        cases v <;> simp [wellTyped] at h
        case String s => exact ⟨.str s, rfl, rfl⟩
      | Array el =>
        cases v <;> simp [wellTyped] at h
        case Compound l =>
          obtain ⟨js, hf, hg⟩ := mapM_round (serializeTV f us el) (deserializeTV f us el)
            l (fun x hx => ih us el x (h x hx))
          refine ⟨.arr js, ?_, ?_⟩
          · simp only [serializeTV]
            rw [hf]
            rfl
          · simp only [deserializeTV]
            rw [hg]
            rfl
      | Struct name =>
        cases v
        case Compound l =>
          simp only [wellTyped] at h
          cases hlu : us.lookup name with
          | none =>
            simp only [hlu] at h
            exact Bool.noConfusion h
          | some st =>
            simp only [hlu] at h
            simp only [Bool.and_eq_true, beq_iff_eq, List.all_eq_true] at h
            obtain ⟨⟨hok, hlen⟩, hall⟩ := h
            obtain ⟨es, hmapM, hfold⟩ := struct_fields_round f us st hok (ih us) l 0
              (List.replicate st.types.length (.Bool false)) (by simpa using hlen)
              (by simp)
              (by rw [List.drop_zero, List.all_eq_true]; exact hall)
            refine ⟨.obj es, ?_, ?_⟩
            · simp only [serializeTV, hlu]
              rw [show l.enum = l.enumFrom 0 from rfl, hmapM]
              rfl
            · simp only [deserializeTV, hlu]
              rw [hfold]
              simp
        all_goals simp [wellTyped] at h
      | Waiting =>
        cases v <;> simp [wellTyped] at h
  · intro fuel us ty h1 hres
    cases fuel with
    | zero => omega
    | succ f =>
      cases ty with
      | Struct name =>
        obtain ⟨st, hst⟩ := Option.isSome_iff_exists.mp (hres name rfl)
        simp only [deserializeTV, waitingJson, hst]
        simp [structFoldWith]
      | Integer => rfl
      | Float => rfl
      | Bool => rfl
      | String => rfl
      | Array el => rfl
      | Waiting => rfl

/-- The struct table used for the C7 witness: struct `P` has an integer
field and a field of nested struct type `Q`. -/
def witnessStructs : List (String × StructDef) :=
  [("P", ⟨[.Integer, .Struct "Q"], [("a", 0), ("b", 1)]⟩),
   ("Q", ⟨[.Float], [("c", 0)]⟩)]

/-- Witness for C7: a nested struct value round-trips, and
`{"$waiting": true}` deserializes to Waiting at struct and integer type. -/
theorem provider_round_trip_witness :
    (wellTyped 3 witnessStructs (.Struct "P")
        (.Compound [.Integer 5, .Compound [.Float (3 / 2)]]) = true ∧
      ∃ j, serializeTV 3 witnessStructs (.Struct "P")
          (.Compound [.Integer 5, .Compound [.Float (3 / 2)]]) = some j ∧
        deserializeTV 3 witnessStructs (.Struct "P") j =
          some (.Compound [.Integer 5, .Compound [.Float (3 / 2)]])) ∧
    deserializeTV 1 witnessStructs (.Struct "P") waitingJson = some .Waiting ∧
    deserializeTV 1 witnessStructs .Integer waitingJson = some .Waiting :=
  ⟨⟨by decide, provider_round_trip.1 3 witnessStructs (.Struct "P") _ (by decide)⟩,
   provider_round_trip.2 1 witnessStructs (.Struct "P") (by decide)
     (fun name h => by cases h; rfl),
   provider_round_trip.2 1 witnessStructs .Integer (by decide) (fun name h => by cases h)⟩

lemma usizeOfI64_natCast (k : Nat) (h : k < 2 ^ 64) : usizeOfI64 (k : Int) = k := by
  unfold usizeOfI64
  rw [Int.emod_eq_of_lt (by positivity) (by exact_mod_cast h)]
  exact Int.toNat_natCast k

/-- The three instructions `StructLiteral::emit` appends per field: the slot
index, the field's value, then `CompoundSet`. -/
def setGroup (p : Nat × DataVal) : List Instr :=
  [.LoadConst (.Integer p.1), .LoadConst p.2, .CompoundSet]

/-- The cumulative effect of a sequence of `CompoundSet`s. -/
def applySets (pairs : List (Nat × DataVal)) (base : List DataVal) : List DataVal :=
  pairs.foldl (fun l p => l.set p.1 p.2) base

/-- Slot/value pair for one named field of the literal: the slot comes from
`strct.names.get(&field).unwrap()`. -/
def gpEntry (st : StructDef) (fv : String × DataVal) : Option (Nat × DataVal) :=
  (st.names.lookup fv.1).bind fun idx => some (idx, fv.2)

/-- Slot/value pair for one remaining (omitted) field: the value is
`DataVal::default_for(strct.types[idx])` (`types[idx]` indexing and the
`default_for` panic are modelled by `none`). -/
def rpEntry (fuel : Nat) (us : List (String × StructDef)) (st : StructDef)
    (kv : String × Nat) : Option (Nat × DataVal) :=
  (st.types[kv.2]?).bind fun tyi =>
    (default_for fuel tyi us).bind fun d => some (kv.2, d)

/-- `impl Expr for StructLiteral` (`emit`), restricted to literals whose
field values are constant expressions (a `Const` emits one `LoadConst`):
create a placeholder compound of `types.len()` slots, then one `setGroup`
per named field (slot via `names.get(&field).unwrap()`), then one
`setGroup` per remaining field carrying `DataVal::default_for` of its type.
`remaining` is the iteration order of the `remaining_fields` map; the
theorem below constrains it to the omitted fields. -/
def emitStructLiteral (fuel : Nat) (us : List (String × StructDef)) (sname : String)
    (values : List (String × DataVal)) (remaining : List (String × Nat)) :
    Option (List Instr) := do
  let st ← us.lookup sname
  let gp ← values.mapM (gpEntry st)
  let rp ← remaining.mapM (rpEntry fuel us st)
  pure ([Instr.LoadConst (.Integer st.types.length), Instr.CompoundCreate] ++
    (gp ++ rp).flatMap setGroup)

lemma applySets_length (pairs : List (Nat × DataVal)) (base : List DataVal) :
    (applySets pairs base).length = base.length := by
  induction pairs generalizing base with
  | nil => rfl
  | cons p rest ih =>
    simp only [applySets, List.foldl_cons] at *
    rw [ih]
    simp

lemma applySets_getElem_not_mem (pairs : List (Nat × DataVal)) (base : List DataVal)
    (i : Nat) (h : i ∉ pairs.map Prod.fst) :
    (applySets pairs base)[i]? = base[i]? := by
  induction pairs generalizing base with
  | nil => rfl
  | cons p rest ih =>
    simp only [List.map_cons, List.mem_cons] at h
    push_neg at h
    show (applySets rest (base.set p.1 p.2))[i]? = base[i]?
    rw [ih (base.set p.1 p.2) h.2]
    exact List.getElem?_set_ne (Ne.symm h.1)

lemma applySets_getElem_mem (pairs : List (Nat × DataVal)) (base : List DataVal)
    (hnd : (pairs.map Prod.fst).Nodup) (i : Nat) (v : DataVal)
    (hmem : (i, v) ∈ pairs) (hlt : i < base.length) :
    (applySets pairs base)[i]? = some v := by
  induction pairs generalizing base with
  | nil => cases hmem
  | cons p rest ih =>
    simp only [List.map_cons, List.nodup_cons] at hnd
    rcases List.mem_cons.mp hmem with heq | hmem2
    · have hp1 : p.1 = i := by rw [← heq]
      have hp2 : p.2 = v := by rw [← heq]
      show (applySets rest (base.set p.1 p.2))[i]? = some v
      rw [hp1, hp2, applySets_getElem_not_mem rest (base.set i v) i (hp1 ▸ hnd.1)]
      exact List.getElem?_set_self hlt
    · have hne : p.1 ≠ i := fun hh =>
        hnd.1 (hh ▸ List.mem_map.mpr ⟨(i, v), hmem2, rfl⟩)
      show (applySets rest (base.set p.1 p.2))[i]? = some v
      exact ih (base.set p.1 p.2) hnd.2 hmem2 (by simpa using hlt)

/-- Stack effect of the straight-line instruction forms that
`StructLiteral::emit` produces; agrees with `normalExec` on them
(`steps_straight` below). -/
def straightEval : List Instr → List DataVal → Option (List DataVal)
  | [], stk => some stk
  | .LoadConst v :: rest, stk => straightEval rest (v :: stk)
  | .CompoundCreate :: rest, stk =>
    match stk with
    | .Integer n :: stk2 =>
      straightEval rest (.Compound (List.replicate (usizeOfI64 n) (.Bool false)) :: stk2)
    | _ => none
  | .CompoundSet :: rest, stk =>
    match stk with
    | val :: .Integer i :: .Compound l :: stk2 =>
      if usizeOfI64 i < l.length then
        straightEval rest (.Compound (l.set (usizeOfI64 i) val) :: stk2)
      else none
    | _ => none
  | _, _ => none

lemma straightEval_append (a b : List Instr) (stk : List DataVal) :
    straightEval (a ++ b) stk = (straightEval a stk).bind (straightEval b) := by
  induction a generalizing stk with
  | nil => rfl
  | cons instr rest ih =>
    cases instr <;> simp only [List.cons_append, straightEval] <;> try rfl
    case LoadConst v => exact ih (v :: stk)
    case CompoundCreate =>
      cases stk with
      | nil => rfl
      | cons x stk2 =>
        cases x <;> simp only [straightEval] <;> try rfl
        exact ih _
    case CompoundSet =>
      match stk with
      | [] => rfl
      | [x] => cases x <;> rfl
      | [x, y] => cases x <;> cases y <;> rfl
      | val :: y :: z :: stk2 =>
        cases y <;> cases z <;> simp only [straightEval] <;> try rfl
        split <;> simp [ih]

lemma straightEval_sets (pairs : List (Nat × DataVal)) (base : List DataVal)
    (stk : List DataVal)
    (hlt : ∀ p ∈ pairs, p.1 < base.length) (hsz : base.length < 2 ^ 64) :
    straightEval (pairs.flatMap setGroup) (.Compound base :: stk) =
      some (.Compound (applySets pairs base) :: stk) := by
  induction pairs generalizing base with
  | nil => rfl
  | cons p rest ih =>
    have hp := hlt p (List.mem_cons_self p rest)
    have hcast : usizeOfI64 (p.1 : Int) = p.1 := usizeOfI64_natCast p.1 (by omega)
    simp only [List.flatMap_cons, setGroup, List.cons_append, List.nil_append,
      straightEval, hcast]
    rw [if_pos hp]
    show straightEval (rest.flatMap setGroup) (.Compound (base.set p.1 p.2) :: stk) = _
    rw [ih (base.set p.1 p.2)
      (fun q hq => by simpa using hlt q (List.mem_cons_of_mem p hq))
      (by simpa using hsz)]
    rfl

lemma mem_of_lookup_eq_some {β : Type} (l : List (String × β)) (k : String) (v : β)
    (h : l.lookup k = some v) : (k, v) ∈ l := by
  induction l with
  | nil => cases h
  | cons p rest ih =>
    cases p with
    | mk pk pv =>
      rw [List.lookup] at h
      cases hbeq : (k == pk) with
      | true =>
        rw [hbeq] at h
        injection h with h
        rw [show k = pk from beq_iff_eq.mp hbeq, ← h]
        exact List.mem_cons_self (pk, pv) rest
      | false =>
        rw [hbeq] at h
        exact List.mem_cons_of_mem (pk, pv) (ih h)

lemma lookup_eq_none_not_mem {β : Type} (l : List (String × β)) (k : String)
    (h : l.lookup k = none) (v : β) : (k, v) ∉ l := by
  induction l with
  | nil => simp
  | cons p rest ih =>
    rw [List.lookup] at h
    cases hbeq : (k == p.1) with
    | true => rw [hbeq] at h; cases h
    | false =>
      rw [hbeq] at h
      intro hm
      rcases List.mem_cons.mp hm with heq | hm2
      · rw [← heq] at hbeq
        simp at hbeq
      · exact ih h hm2

lemma mapM_mem_image {α β : Type} (f : α → Option β) (l : List α) (res : List β)
    (h : l.mapM f = some res) (a : α) (ha : a ∈ l) : ∃ b ∈ res, f a = some b := by
  induction l generalizing res with
  | nil => cases ha
  | cons x xs ih =>
    rw [List.mapM_cons] at h
    cases hfx : f x with
    | none => rw [hfx] at h; cases h
    | some y =>
      rw [hfx] at h
      cases hxs : xs.mapM f with
      | none => rw [hxs] at h; cases h
      | some ys =>
        rw [hxs] at h
        injection h with h
        rcases List.mem_cons.mp ha with heq | ha2
        · exact ⟨y, by rw [← h]; exact List.mem_cons_self y ys, heq ▸ hfx⟩
        · obtain ⟨b, hb, hfb⟩ := ih ys hxs ha2
          exact ⟨b, by rw [← h]; exact List.mem_cons_of_mem y hb, hfb⟩

lemma mapM_mem_preimage {α β : Type} (f : α → Option β) (l : List α) (res : List β)
    (h : l.mapM f = some res) (b : β) (hb : b ∈ res) : ∃ a ∈ l, f a = some b := by
  induction l generalizing res with
  | nil =>
    injection h with h
    rw [← h] at hb
    cases hb
  | cons x xs ih =>
    rw [List.mapM_cons] at h
    cases hfx : f x with
    | none => rw [hfx] at h; cases h
    | some y =>
      rw [hfx] at h
      cases hxs : xs.mapM f with
      | none => rw [hxs] at h; cases h
      | some ys =>
        rw [hxs] at h
        injection h with h
        rw [← h] at hb
        rcases List.mem_cons.mp hb with heq | hb2
        · exact ⟨x, List.mem_cons_self x xs, heq ▸ hfx⟩
        · obtain ⟨a, ha, hfa⟩ := ih ys hxs hb2
          exact ⟨a, List.mem_cons_of_mem x ha, hfa⟩

lemma steps_straight (suffix : List Instr) :
    ∀ (pre : List Instr) (m : Prog) (out : List DataVal),
      m.code = [pre ++ suffix] →
      m.ip = (0, pre.length) →
      m.entrypoint = 0 →
      m.evaluating_side_effects = false →
      m.cycles + suffix.length ≤ 1000 →
      straightEval suffix m.eval_stack = some out →
      ∃ m', steps suffix.length m = some m' ∧ m'.eval_stack = out ∧
        m'.ip = (0, pre.length + suffix.length) ∧ m'.code = m.code ∧
        m'.vars = m.vars ∧ m'.call_stack = m.call_stack ∧
        m'.cycles = m.cycles + suffix.length ∧
        m'.evaluating_side_effects = false ∧ m'.entrypoint = 0 := by
  induction suffix with
  | nil =>
    intro pre m out hcode hip hentry hmode hcyc hse
    injection hse with hse
    exact ⟨m, rfl, hse, by rw [hip]; rfl, rfl, rfl, rfl, rfl, hmode, hentry⟩
  | cons instr rest ih =>
    intro pre m out hcode hip hentry hmode hcyc hse
    have hfetch : fetchInstr m = some instr := by
      unfold fetchInstr
      rw [hcode, hip]
      simp only [List.getElem?_cons_zero, Option.bind_eq_bind, Option.some_bind]
      rw [List.getElem?_append_right (Nat.le_refl pre.length)]
      simp
    have hstep : step m = normalExec { m with cycles := m.cycles + 1 } instr := by
      rw [step_fetch m instr hfetch]
      exact execInstr_normal m instr (by simp only [List.length_cons] at hcyc; omega) hmode
    have hgo : ∀ (m1 : Prog) (stk1 : List DataVal),
        step m = .next m1 →
        m1.eval_stack = stk1 →
        m1.ip = (0, pre.length + 1) →
        m1.code = m.code → m1.vars = m.vars → m1.call_stack = m.call_stack →
        m1.cycles = m.cycles + 1 → m1.evaluating_side_effects = false →
        straightEval rest stk1 = some out →
        ∃ m', steps (instr :: rest).length m = some m' ∧ m'.eval_stack = out ∧
          m'.ip = (0, pre.length + (instr :: rest).length) ∧ m'.code = m.code ∧
          m'.vars = m.vars ∧ m'.call_stack = m.call_stack ∧
          m'.cycles = m.cycles + (instr :: rest).length ∧
          m'.evaluating_side_effects = false ∧ m'.entrypoint = 0 := by
      intro m1 stk1 hs hstk hip1 hcode1 hvars1 hcs1 hcyc1 hmode1 hrest
      obtain ⟨m', hsteps, ho1, ho2, ho3, ho4, ho5, ho6, ho7, ho8⟩ :=
        ih (pre ++ [instr]) m1 out
          (by rw [hcode1, hcode]; simp)
          (by rw [hip1]; simp)
          (by obtain ⟨i2, he, -⟩ := step_next_exec m m1 hs
              cases hmm : m.evaluating_side_effects
              · obtain ⟨-, hn⟩ := execInstr_next_norm m i2 m1 hmm he
                rw [(normalExec_pres _ _ _ hn).2.1]
                exact hentry
              · rw [hmm] at hmode
                cases hmode)
          hmode1
          (by simp only [List.length_cons] at hcyc
              rw [hcyc1]
              omega)
          (hstk ▸ hrest)
      refine ⟨m', ?_, ho1, ?_, by rw [ho3, hcode1], by rw [ho4, hvars1],
        by rw [ho5, hcs1], by rw [ho6, hcyc1]; simp only [List.length_cons]; omega,
        ho7, ho8⟩
      · show steps (rest.length + 1) m = some m'
        simp only [steps, hs]
        exact hsteps
      · rw [ho2]
        simp only [List.length_append, List.length_cons, List.length_nil,
          Prod.mk.injEq, true_and]
        omega
    cases instr with
    | LoadConst v =>
      simp only [straightEval] at hse
      exact hgo (advance { m with cycles := m.cycles + 1, eval_stack := v :: m.eval_stack }) (v :: m.eval_stack) (by rw [hstep]; rfl) rfl (by rw [hip]; rfl) rfl rfl rfl rfl hmode hse
    | CompoundCreate =>
      simp only [straightEval] at hse
      match hstk : m.eval_stack with
      | .Integer n :: stk2 =>
        rw [hstk] at hse
        exact hgo (advance { m with cycles := m.cycles + 1, eval_stack := .Compound (List.replicate (usizeOfI64 n) (.Bool false)) :: stk2 }) (.Compound (List.replicate (usizeOfI64 n) (.Bool false)) :: stk2) (by rw [hstep]; simp [normalExec, hstk, is_waiting]) rfl (by rw [hip]; rfl) rfl rfl rfl rfl hmode hse
      | [] => rw [hstk] at hse; cases hse
      | .Float q :: s => rw [hstk] at hse; cases hse
      | .Bool b :: s => rw [hstk] at hse; cases hse
      | .String t :: s => rw [hstk] at hse; cases hse
      | .Compound c :: s => rw [hstk] at hse; cases hse
      | .Waiting :: s => rw [hstk] at hse; cases hse
    | CompoundSet =>
      simp only [straightEval] at hse
      match hstk : m.eval_stack with
      | val :: .Integer i :: .Compound l :: stk2 =>
        simp only [hstk, straightEval] at hse
        by_cases hi : usizeOfI64 i < l.length
        · rw [if_pos hi] at hse
          exact hgo (advance { m with cycles := m.cycles + 1, eval_stack := .Compound (l.set (usizeOfI64 i) val) :: stk2 }) (.Compound (l.set (usizeOfI64 i) val) :: stk2) (by rw [hstep]; simp [normalExec, hstk, is_waiting, hi]) rfl (by rw [hip]; rfl) rfl rfl rfl rfl hmode hse
        · rw [if_neg hi] at hse
          cases hse
      | [] => rw [hstk] at hse; cases hse
      | [x] => rw [hstk] at hse; cases x <;> cases hse
      | [x, y] => rw [hstk] at hse; cases x <;> cases y <;> cases hse
      | x :: .Integer i :: .Integer z :: s => rw [hstk] at hse; cases hse
      | x :: .Integer i :: .Float z :: s => rw [hstk] at hse; cases hse
      | x :: .Integer i :: .Bool z :: s => rw [hstk] at hse; cases hse
      | x :: .Integer i :: .String z :: s => rw [hstk] at hse; cases hse
      | x :: .Integer i :: .Waiting :: s => rw [hstk] at hse; cases hse
      | x :: .Float q :: z :: s => rw [hstk] at hse; cases hse
      | x :: .Bool b :: z :: s => rw [hstk] at hse; cases hse
      | x :: .String t :: z :: s => rw [hstk] at hse; cases hse
      | x :: .Compound c :: z :: s => rw [hstk] at hse; cases hse
      | x :: .Waiting :: z :: s => rw [hstk] at hse; cases hse
    | BinaryExpr op => cases hse
    | Concat => cases hse
    | UnaryExpr op => cases hse
    | LoadIdent i => cases hse
    | StoreIdent i => cases hse
    | IfExpr t f => cases hse
    | Discard => cases hse
    | CompoundGet => cases hse
    | Goto l => cases hse
    | Call l => cases hse
    | Return => cases hse
    | ExternCall pt rt => cases hse

lemma structOK_mem_lt (st : StructDef) (hok : structOK st = true)
    (kv : String × Nat) (hm : kv ∈ st.names) : kv.2 < st.types.length := by
  simp only [structOK, Bool.and_eq_true, decide_eq_true_eq, List.all_eq_true] at hok
  have := hok.1.2 kv hm
  simp only [Bool.and_eq_true, decide_eq_true_eq] at this
  exact this.1

lemma structOK_snd_inj (st : StructDef) (hok : structOK st = true)
    (k1 k2 : String) (i : Nat) (h1 : (k1, i) ∈ st.names) (h2 : (k2, i) ∈ st.names) :
    k1 = k2 := by
  simp only [structOK, Bool.and_eq_true, decide_eq_true_eq, List.all_eq_true] at hok
  have := List.inj_on_of_nodup_map hok.1.1.2 h1 h2 rfl
  exact congrArg Prod.fst this

lemma structOK_fst_inj (st : StructDef) (hok : structOK st = true)
    (k : String) (i1 i2 : Nat) (h1 : (k, i1) ∈ st.names) (h2 : (k, i2) ∈ st.names) :
    i1 = i2 := by
  simp only [structOK, Bool.and_eq_true, decide_eq_true_eq, List.all_eq_true] at hok
  have := List.inj_on_of_nodup_map hok.1.1.1 h1 h2 rfl
  exact congrArg Prod.snd this

lemma gp_fst_nodup (st : StructDef) (hok : structOK st = true) :
    ∀ (values : List (String × DataVal)) (gp : List (Nat × DataVal)),
      values.mapM (gpEntry st) = some gp → (values.map Prod.fst).Nodup →
      (gp.map Prod.fst).Nodup := by
  intro values
  induction values with
  | nil =>
    intro gp h hnd
    injection h with h
    rw [← h]
    exact List.nodup_nil
  | cons fv rest ih =>
    intro gp h hnd
    rw [List.mapM_cons] at h
    cases hfx : gpEntry st fv with
    | none => rw [hfx] at h; cases h
    | some p =>
      rw [hfx] at h
      cases hxs : rest.mapM (gpEntry st) with
      | none => rw [hxs] at h; cases h
      | some gps =>
        rw [hxs] at h
        injection h with h
        rw [← h]
        simp only [List.map_cons, List.nodup_cons]
        simp only [List.map_cons, List.nodup_cons] at hnd
        constructor
        · intro hin
          obtain ⟨q, hq, hq1⟩ := List.mem_map.mp hin
          obtain ⟨fv2, hfv2, hfe2⟩ := mapM_mem_preimage _ rest gps hxs q hq
          simp only [gpEntry, Option.bind_eq_bind] at hfx hfe2
          cases hl1 : st.names.lookup fv.1 with
          | none => rw [hl1] at hfx; cases hfx
          | some i1 =>
            rw [hl1] at hfx
            injection hfx with hfx
            cases hl2 : st.names.lookup fv2.1 with
            | none => rw [hl2] at hfe2; cases hfe2
            | some i2 =>
              rw [hl2] at hfe2
              injection hfe2 with hfe2
              have hi12 : i1 = i2 := by
                have e1 : p.1 = i1 := by rw [← hfx]
                have e2 : q.1 = i2 := by rw [← hfe2]
                rw [← e1, ← e2, hq1]
              have hm1 := mem_of_lookup_eq_some _ _ _ hl1
              have hm2 := mem_of_lookup_eq_some _ _ _ hl2
              rw [hi12] at hm1
              have := structOK_snd_inj st hok fv.1 fv2.1 i2 hm1 hm2
              exact hnd.1 (this ▸ List.mem_map.mpr ⟨fv2, hfv2, rfl⟩)
        · exact ih gps hxs hnd.2

lemma rp_fst_nodup (fuel : Nat) (us : List (String × StructDef)) (st : StructDef)
    (hok : structOK st = true) :
    ∀ (remaining : List (String × Nat)) (rp : List (Nat × DataVal)),
      remaining.mapM (rpEntry fuel us st) = some rp →
      (remaining.map Prod.fst).Nodup →
      (∀ kv ∈ remaining, kv ∈ st.names) →
      (rp.map Prod.fst).Nodup := by
  intro remaining
  induction remaining with
  | nil =>
    intro rp h hnd hsub
    injection h with h
    rw [← h]
    exact List.nodup_nil
  | cons kv rest ih =>
    intro rp h hnd hsub
    rw [List.mapM_cons] at h
    cases hfx : rpEntry fuel us st kv with
    | none => rw [hfx] at h; cases h
    | some p =>
      rw [hfx] at h
      cases hxs : rest.mapM (rpEntry fuel us st) with
      | none => rw [hxs] at h; cases h
      | some rps =>
        rw [hxs] at h
        injection h with h
        rw [← h]
        simp only [List.map_cons, List.nodup_cons]
        simp only [List.map_cons, List.nodup_cons] at hnd
        have hp1 : p.1 = kv.2 := by
          simp only [rpEntry, Option.bind_eq_bind] at hfx
          cases ht : st.types[kv.2]? with
          | none => rw [ht] at hfx; cases hfx
          | some tyi =>
            rw [ht] at hfx
            simp only [Option.some_bind] at hfx
            cases hd : default_for fuel tyi us with
            | none => rw [hd] at hfx; cases hfx
            | some d =>
              rw [hd] at hfx
              injection hfx with hfx
              rw [← hfx]
        constructor
        · intro hin
          obtain ⟨q, hq, hq1⟩ := List.mem_map.mp hin
          obtain ⟨kv2, hkv2, hfe2⟩ := mapM_mem_preimage _ rest rps hxs q hq
          have hq1' : q.1 = kv2.2 := by
            simp only [rpEntry, Option.bind_eq_bind] at hfe2
            cases ht : st.types[kv2.2]? with
            | none => rw [ht] at hfe2; cases hfe2
            | some tyi =>
              rw [ht] at hfe2
              simp only [Option.some_bind] at hfe2
              cases hd : default_for fuel tyi us with
              | none => rw [hd] at hfe2; cases hfe2
              | some d =>
                rw [hd] at hfe2
                injection hfe2 with hfe2
                rw [← hfe2]
          have hsame : kv.2 = kv2.2 := by rw [← hp1, ← hq1]; exact hq1'
          have hm1 := hsub kv (List.mem_cons_self kv rest)
          have hm2 := hsub kv2 (List.mem_cons_of_mem kv hkv2)
          have hk : kv.1 = kv2.1 := by
            have h1 : (kv.1, kv2.2) ∈ st.names := by rw [← hsame]; exact hm1
            exact structOK_snd_inj st hok kv.1 kv2.1 kv2.2 h1 hm2
          exact hnd.1 (hk ▸ List.mem_map.mpr ⟨kv2, hkv2, rfl⟩)
        · exact ih rps hxs hnd.2 fun x hx => hsub x (List.mem_cons_of_mem kv hx)

lemma gpEntry_spec (st : StructDef) (fv : String × DataVal) (p : Nat × DataVal)
    (h : gpEntry st fv = some p) :
    st.names.lookup fv.1 = some p.1 ∧ p.2 = fv.2 := by
  simp only [gpEntry, Option.bind_eq_bind] at h
  cases hl : st.names.lookup fv.1 with
  | none => rw [hl] at h; cases h
  | some i =>
    rw [hl] at h
    simp only [Option.some_bind] at h
    injection h with h
    subst h
    exact ⟨rfl, rfl⟩

lemma rpEntry_spec (fuel : Nat) (us : List (String × StructDef)) (st : StructDef)
    (kv : String × Nat) (p : Nat × DataVal)
    (h : rpEntry fuel us st kv = some p) :
    p.1 = kv.2 ∧ ∃ tyi, st.types[kv.2]? = some tyi ∧
      default_for fuel tyi us = some p.2 := by
  simp only [rpEntry, Option.bind_eq_bind] at h
  cases ht : st.types[kv.2]? with
  | none => rw [ht] at h; cases h
  | some tyi =>
    rw [ht] at h
    simp only [Option.some_bind] at h
    cases hd : default_for fuel tyi us with
    | none => rw [hd] at h; cases h
    | some d =>
      rw [hd] at h
      injection h with h
      subst h
      exact ⟨rfl, tyi, rfl, hd⟩

/-- C9: struct-literal construction zero-fills omitted fields recursively
by the field's `DataType`.  First conjunct: `default_for` yields Integer 0,
Float 0.0, Bool false, String "", empty Array (struct defaults recurse
through `default_for` itself).  Second conjunct: executing the instructions
emitted for a literal of struct `sname` (constant field values `values`,
omitted fields `remaining` in any order) terminates normally with a single
compound on the stack in which every named field holds its literal value
and every omitted field holds its type's default. -/
theorem struct_literal_zero_fill :
    (∀ fuel us, default_for (fuel + 1) .Integer us = some (.Integer 0) ∧
      default_for (fuel + 1) .Float us = some (.Float 0) ∧
      default_for (fuel + 1) .Bool us = some (.Bool false) ∧
      default_for (fuel + 1) .String us = some (.String "") ∧
      ∀ el, default_for (fuel + 1) (.Array el) us = some (.Compound [])) ∧
    (∀ fuel us sname st values remaining blk,
      us.lookup sname = some st →
      structOK st = true →
      st.types.length < 2 ^ 64 →
      blk.length ≤ 1000 →
      (values.map Prod.fst).Nodup →
      (remaining.map Prod.fst).Nodup →
      (∀ kv : String × Nat, kv ∈ remaining ↔
        (kv ∈ st.names ∧ kv.1 ∉ values.map Prod.fst)) →
      emitStructLiteral fuel us sname values remaining = some blk →
      ∃ m' final,
        steps blk.length { emptyProg with code := [blk] } = some m' ∧
        m'.eval_stack = [.Compound final] ∧
        final.length = st.types.length ∧
        step m' = .done m' ∧
        ∀ nm idx tyi, (nm, idx) ∈ st.names → st.types[idx]? = some tyi →
          final[idx]? = (match values.lookup nm with
            | some v => some v
            | none => default_for fuel tyi us)) := by
  constructor
  · intro fuel us
    exact ⟨rfl, rfl, rfl, rfl, fun el => rfl⟩
  intro fuel us sname st values remaining blk hlu hok hsmall hblen hvnd hrnd hrem hemit
  simp only [emitStructLiteral, hlu, Option.bind_eq_bind, Option.some_bind] at hemit
  cases hgp : values.mapM (gpEntry st) with
  | none => rw [hgp] at hemit; cases hemit
  | some gp =>
  rw [hgp] at hemit
  simp only [Option.some_bind] at hemit
  cases hrp : remaining.mapM (rpEntry fuel us st) with
  | none => rw [hrp] at hemit; cases hemit
  | some rp =>
  rw [hrp] at hemit
  simp only [Option.some_bind] at hemit
  injection hemit with hblk
  subst hblk
  have hsub : ∀ kv ∈ remaining, kv ∈ st.names := fun kv hkv => ((hrem kv).mp hkv).1
  have hbase : ∀ p ∈ gp ++ rp, p.1 < st.types.length := by
    intro p hp
    rcases List.mem_append.mp hp with hp | hp
    · obtain ⟨fv, hfv, hfe⟩ := mapM_mem_preimage _ values gp hgp p hp
      obtain ⟨hlook, -⟩ := gpEntry_spec st fv p hfe
      exact structOK_mem_lt st hok (fv.1, p.1) (mem_of_lookup_eq_some _ _ _ hlook)
    · obtain ⟨kv, hkv, hfe⟩ := mapM_mem_preimage _ remaining rp hrp p hp
      obtain ⟨hp1, -⟩ := rpEntry_spec fuel us st kv p hfe
      rw [hp1]
      exact structOK_mem_lt st hok kv (hsub kv hkv)
  have hnd : ((gp ++ rp).map Prod.fst).Nodup := by
    rw [List.map_append]
    refine List.Nodup.append (gp_fst_nodup st hok values gp hgp hvnd)
      (rp_fst_nodup fuel us st hok remaining rp hrp hrnd hsub) ?_
    intro i higp hirp
    obtain ⟨p, hp, hp1⟩ := List.mem_map.mp higp
    obtain ⟨q, hq, hq1⟩ := List.mem_map.mp hirp
    obtain ⟨fv, hfv, hfe⟩ := mapM_mem_preimage _ values gp hgp p hp
    obtain ⟨kv, hkv, hke⟩ := mapM_mem_preimage _ remaining rp hrp q hq
    obtain ⟨hlook, -⟩ := gpEntry_spec st fv p hfe
    obtain ⟨hq1', -⟩ := rpEntry_spec fuel us st kv q hke
    have hm1 : (fv.1, i) ∈ st.names := by
      rw [← hp1]
      exact mem_of_lookup_eq_some _ _ _ hlook
    have hm2 : (kv.1, i) ∈ st.names := by
      rw [← hq1, hq1']
      exact hsub kv hkv
    have hkeq : fv.1 = kv.1 := structOK_snd_inj st hok fv.1 kv.1 i hm1 hm2
    exact ((hrem kv).mp hkv).2 (hkeq ▸ List.mem_map.mpr ⟨fv, hfv, rfl⟩)
  have hse : straightEval
      ([Instr.LoadConst (.Integer st.types.length), Instr.CompoundCreate] ++
        (gp ++ rp).flatMap setGroup) [] =
      some [.Compound (applySets (gp ++ rp)
        (List.replicate st.types.length (.Bool false)))] := by
    rw [straightEval_append]
    have h1 : straightEval
        [Instr.LoadConst (.Integer st.types.length), Instr.CompoundCreate] [] =
        some [.Compound (List.replicate st.types.length (.Bool false))] := by
      simp only [straightEval]
      rw [usizeOfI64_natCast st.types.length hsmall]
    rw [h1, Option.some_bind]
    exact straightEval_sets (gp ++ rp) _ []
      (fun p hp => by simpa using hbase p hp) (by simpa using hsmall)
  obtain ⟨m', hsteps, hstk', hip', hcode', hvars', hcs', hcyc', hmode', hentry'⟩ :=
    steps_straight _ [] { emptyProg with code :=
      [[Instr.LoadConst (.Integer st.types.length), Instr.CompoundCreate] ++
        (gp ++ rp).flatMap setGroup] } _
      (by simp) rfl rfl rfl (by simpa [emptyProg] using hblen) hse
  refine ⟨m', applySets (gp ++ rp) (List.replicate st.types.length (.Bool false)),
    hsteps, hstk', by rw [applySets_length]; simp, ?_, ?_⟩
  · have h0 : m'.code[m'.ip.1]? =
        some ([Instr.LoadConst (.Integer st.types.length), Instr.CompoundCreate] ++
          (gp ++ rp).flatMap setGroup) := by
      rw [hcode', hip']
      rfl
    unfold step
    simp only [h0]
    rw [if_pos (by rw [hip']; simp), if_pos (by rw [hip', hentry'])]
  · intro nm idx tyi hnm hty
    have hidxlt : idx < (List.replicate st.types.length
        (DataVal.Bool false) : List DataVal).length := by
      simpa using structOK_mem_lt st hok (nm, idx) hnm
    cases hv : values.lookup nm with
    | some v =>
      obtain ⟨p, hpgp, hpe⟩ := mapM_mem_image (gpEntry st) values gp hgp (nm, v)
        (mem_of_lookup_eq_some _ _ _ hv)
      cases p with
      | mk p1 p2 =>
        obtain ⟨hlook, hp2⟩ := gpEntry_spec st (nm, v) (p1, p2) hpe
        have hp1 : p1 = idx := structOK_fst_inj st hok nm p1 idx
          (mem_of_lookup_eq_some _ _ _ hlook) hnm
        rw [hp1] at hpgp
        rw [show p2 = v from hp2] at hpgp
        exact applySets_getElem_mem (gp ++ rp) _ hnd idx v
          (List.mem_append_left rp hpgp) hidxlt
    | none =>
      have hnotin : nm ∉ values.map Prod.fst := by
        intro hin
        obtain ⟨fv, hfv, hfeq⟩ := List.mem_map.mp hin
        exact lookup_eq_none_not_mem values nm hv fv.2 (by rw [← hfeq]; exact hfv)
      have hkvrem : (nm, idx) ∈ remaining := (hrem (nm, idx)).mpr ⟨hnm, hnotin⟩
      obtain ⟨p, hprp, hpe⟩ := mapM_mem_image (rpEntry fuel us st) remaining rp hrp
        (nm, idx) hkvrem
      cases p with
      | mk p1 p2 =>
        obtain ⟨hp1, tyi0, hty0, hdef⟩ := rpEntry_spec fuel us st (nm, idx) (p1, p2) hpe
        simp only at hp1 hty0
        have htyeq : tyi0 = tyi := by
          rw [hty0] at hty
          injection hty
        rw [← htyeq, hdef]
        rw [show p1 = idx from hp1] at hprp
        exact applySets_getElem_mem (gp ++ rp) _ hnd idx p2
          (List.mem_append_right gp hprp) hidxlt

def testStruct : StructDef :=
  { types := [.Integer, .Float], names := [("n1", 0), ("n2", 1)] }

theorem struct_literal_zero_fill_witness :
    ∃ m' final,
      steps 8 { emptyProg with code := [[Instr.LoadConst (.Integer 2),
        Instr.CompoundCreate, Instr.LoadConst (.Integer 0),
        Instr.LoadConst (.Integer 5), Instr.CompoundSet,
        Instr.LoadConst (.Integer 1), Instr.LoadConst (.Float 0),
        Instr.CompoundSet]] } = some m' ∧
      m'.eval_stack = [.Compound final] ∧
      final.length = 2 ∧
      step m' = .done m' ∧
      final[0]? = some (.Integer 5) ∧
      final[1]? = some (.Float 0) := by
  have hrem : ∀ kv : String × Nat, kv ∈ ([("n2", 1)] : List (String × Nat)) ↔
      (kv ∈ testStruct.names ∧
        kv.1 ∉ ([("n1", DataVal.Integer 5)].map Prod.fst)) := by
    rintro ⟨a, b⟩
    simp only [testStruct, List.mem_singleton, List.mem_cons, List.map_cons,
      List.map_nil, List.not_mem_nil, or_false, Prod.mk.injEq]
    constructor
    · rintro ⟨rfl, rfl⟩
      exact ⟨Or.inr ⟨rfl, rfl⟩, by decide⟩
    · rintro ⟨⟨rfl, rfl⟩ | ⟨rfl, rfl⟩, h2⟩
      · exact absurd rfl h2
      · exact ⟨rfl, rfl⟩
  obtain ⟨m', final, h1, h2, h3, h4, h5⟩ :=
    struct_literal_zero_fill.2 1 [("Test", testStruct)] "Test" testStruct
      [("n1", .Integer 5)] [("n2", 1)]
      [Instr.LoadConst (.Integer 2), Instr.CompoundCreate,
        Instr.LoadConst (.Integer 0), Instr.LoadConst (.Integer 5),
        Instr.CompoundSet, Instr.LoadConst (.Integer 1),
        Instr.LoadConst (.Float 0), Instr.CompoundSet]
      (by decide) (by decide) (by decide) (by decide) (by decide) (by decide)
      hrem rfl
  refine ⟨m', final, h1, h2, h3, h4, ?_, ?_⟩
  · exact h5 "n1" 0 .Integer (by decide) rfl
  · exact h5 "n2" 1 .Float (by decide) rfl

/-- The labels an instruction hands to the side-effect-mode sweep: an
`IfExpr` enqueues both targets, `Goto` and `Call` their label; nothing else
enqueues. -/
def instrTargets : Instr → List Nat
  | .IfExpr if_true if_false => [if_true, if_false]
  | .Goto label => [label]
  | .Call label => [label]
  | _ => []

/-- The instruction list of block `b` (empty for an out-of-range label). -/
def blockOf (C : List (List Instr)) (b : Nat) : List Instr := (C[b]?).getD []

/-- The addresses written by the `StoreIdent` instructions of a block. -/
def storeAddrs (blk : List Instr) : List Nat :=
  blk.filterMap fun i => match i with | .StoreIdent a => some a | _ => none

/-- All sweep targets of a block. -/
def blockTargets (blk : List Instr) : List Nat := blk.flatMap instrTargets

/-- The blocks the sweep visits starting from `roots`: a root itself (the
`CONTINUE` sentinel is skipped when popped), or the target of a branch
instruction in an already-visited block. -/
inductive Reach (C : List (List Instr)) (roots : List Nat) : Nat → Prop where
  | root {b : Nat} : b ∈ roots → b ≠ CONTINUE → Reach C roots b
  | step {b tgt : Nat} : Reach C roots b → tgt ∈ blockTargets (blockOf C b) →
      tgt ≠ CONTINUE → Reach C roots tgt

/-- The not-yet-scanned remainder of the block the ip points into. -/
def suffixFrom (C : List (List Instr)) (ip : Nat × Nat) : List Instr :=
  (blockOf C ip.1).drop ip.2

/-- Address `a` is still scheduled to be forced to Waiting: a `StoreIdent a`
sits in the unscanned remainder of the current block, or in some block the
sweep can still reach from the work queue or from a branch in that
remainder. -/
def Sched (C : List (List Instr)) (queue : List Nat) (suffix : List Instr)
    (a : Nat) : Prop :=
  a ∈ storeAddrs suffix ∨
  ∃ r b, (r ∈ queue ∨ r ∈ blockTargets suffix) ∧ Reach C [r] b ∧
    a ∈ storeAddrs (blockOf C b)

/-- Invariant of one speculative sweep launched at the `IfExpr` whose frame
`fr0` sits atop the call stack: the machine stays in side-effect mode over
the fixed code `C`, the current block and all queued blocks are reachable
from the two arms, every store address of a reachable block is already
Waiting or still scheduled, and unreachable addresses still hold their
pre-sweep values `V0`. -/
def SweepInv (C : List (List Instr)) (V0 : List DataVal) (t f : Nat)
    (fr0 : Nat × Nat) (cs0 : List (Nat × Nat)) (s : Prog) : Prop :=
  s.evaluating_side_effects = true ∧
  s.code = C ∧
  s.vars.length = V0.length ∧
  Reach C [t, f] s.ip.1 ∧
  (∀ q ∈ s.blocks_to_eval, q = CONTINUE ∨ Reach C [t, f] q) ∧
  s.call_stack = fr0 :: cs0 ∧
  (∀ b, Reach C [t, f] b → ∀ a, a ∈ storeAddrs (blockOf C b) →
    s.vars[a]? = some .Waiting ∨
      Sched C s.blocks_to_eval (suffixFrom C s.ip) a) ∧
  (∀ a, (∀ b, Reach C [t, f] b → a ∉ storeAddrs (blockOf C b)) →
    s.vars[a]? = V0[a]?)

lemma reach_continue (C : List (List Instr)) (b : Nat)
    (h : Reach C [CONTINUE] b) : False := by
  induction h with
  | root hb hne => simp at hb; exact hne hb
  | step hr ht hne ih => exact ih

lemma reach_split (C : List (List Instr)) (t f b : Nat)
    (h : Reach C [t, f] b) : Reach C [t] b ∨ Reach C [f] b := by
  induction h with
  | root hb hne =>
    rcases List.mem_cons.mp hb with rfl | hb
    · exact Or.inl (Reach.root (by simp) hne)
    · simp only [List.mem_singleton] at hb
      subst hb
      exact Or.inr (Reach.root (by simp) hne)
  | step hr ht hne ih =>
    rcases ih with ih | ih
    · exact Or.inl (Reach.step ih ht hne)
    · exact Or.inr (Reach.step ih ht hne)

lemma reach_decomp (C : List (List Instr)) (q b : Nat)
    (h : Reach C [q] b) :
    b = q ∨ ∃ t1, t1 ∈ blockTargets (blockOf C q) ∧ t1 ≠ CONTINUE ∧
      Reach C [t1] b := by
  induction h with
  | root hb hne => simp only [List.mem_singleton] at hb; exact Or.inl hb
  | step hr ht hne ih =>
    rcases ih with rfl | ⟨t1, ht1, hne1, hr1⟩
    · exact Or.inr ⟨_, ht, hne, Reach.root (by simp) hne⟩
    · exact Or.inr ⟨t1, ht1, hne1, Reach.step hr1 ht hne⟩

lemma storeAddrs_cons_store (a : Nat) (rest : List Instr) :
    storeAddrs (.StoreIdent a :: rest) = a :: storeAddrs rest := rfl

lemma storeAddrs_cons_not_store (i : Instr) (rest : List Instr)
    (h : ∀ a, i ≠ .StoreIdent a) :
    storeAddrs (i :: rest) = storeAddrs rest := by
  cases i <;> first | (exact absurd rfl (h _)) | rfl

lemma instrTargets_not_branch (i : Instr)
    (h1 : ∀ t f, i ≠ .IfExpr t f) (h2 : ∀ l, i ≠ .Goto l)
    (h3 : ∀ l, i ≠ .Call l) : instrTargets i = [] := by
  cases i <;>
    first
      | (exact absurd rfl (h1 _ _))
      | (exact absurd rfl (h2 _))
      | (exact absurd rfl (h3 _))
      | rfl

lemma blockTargets_cons (i : Instr) (rest : List Instr) :
    blockTargets (i :: rest) = instrTargets i ++ blockTargets rest := by
  simp [blockTargets]

lemma drop_cons_of_getElem? {α : Type} (l : List α) (n : Nat) (x : α)
    (h : l[n]? = some x) : l.drop n = x :: l.drop (n + 1) := by
  induction l generalizing n with
  | nil => simp at h
  | cons y ys ih =>
    cases n with
    | zero => simp at h; subst h; simp
    | succ n' =>
      simp only [List.getElem?_cons_succ] at h
      simpa [List.drop_succ_cons] using ih n' h

lemma drainF_char (fuel : Nat) (s s' : Prog)
    (hfr : ∀ fr rest, s.call_stack = fr :: rest →
      ∃ blk, s.code[fr.1]? = some blk ∧ fr.2 < blk.length) :
    (drainF fuel s = .contOuter s' →
      (∃ blk, s.code[s.ip.1]? = some blk ∧ ¬ s.ip.2 < blk.length) ∧
      ∃ pre q rest, s.blocks_to_eval = pre ++ q :: rest ∧
        (∀ x ∈ pre, x = CONTINUE) ∧ q ≠ CONTINUE ∧
        s' = { s with blocks_to_eval := rest, ip := (q, 0) }) ∧
    (drainF fuel s = .fall s' →
      (s' = s ∧ ∃ blk, s.code[s.ip.1]? = some blk ∧ s.ip.2 < blk.length) ∨
      ((∀ x ∈ s.blocks_to_eval, x = CONTINUE) ∧
        (∃ blk, s.code[s.ip.1]? = some blk ∧ ¬ s.ip.2 < blk.length) ∧
        ∃ fr rest, s.call_stack = fr :: rest ∧
          s' = { s with evaluating_side_effects := false,
                        blocks_to_eval := [], call_stack := rest, ip := fr })) := by
  induction fuel generalizing s with
  | zero =>
    constructor
    · intro h; exact DrainRes.noConfusion h
    · intro h; exact DrainRes.noConfusion h
  | succ f ih =>
    constructor
    all_goals intro h
    all_goals simp only [drainF] at h
    all_goals cases hcb : s.code[s.ip.1]? with
      | none => simp only [hcb] at h; exact DrainRes.noConfusion h
      | some blk => ?_
    all_goals simp only [hcb] at h
    all_goals by_cases hlt : s.ip.2 < blk.length
    · rw [if_pos hlt] at h
      exact DrainRes.noConfusion h
    · rw [if_neg hlt] at h
      cases hq : s.blocks_to_eval with
      | cons next rest =>
        simp only [hq] at h
        by_cases hc : next = CONTINUE
        · rw [if_pos hc] at h
          have ih' := (ih { s with blocks_to_eval := rest }
            (by intro fr r hfr'; exact hfr fr r hfr')).1 h
          obtain ⟨hoor, pre, q, rest', hdec, hpre, hqc, hs'⟩ := ih'
          simp only at hdec
          refine ⟨⟨blk, rfl, hlt⟩, CONTINUE :: pre, q, rest', ?_, ?_, hqc, ?_⟩
          · simp [hc, hdec]
          · intro x hx
            rcases List.mem_cons.mp hx with rfl | hx
            · rfl
            · exact hpre x hx
          · rw [hs']
        · rw [if_neg hc] at h
          injection h with h
          exact ⟨⟨blk, rfl, hlt⟩, [], next, rest, by simp, by simp, hc, h.symm⟩
      | nil =>
        simp only [hq] at h
        cases hcs : s.call_stack with
        | nil => simp only [hcs] at h; exact DrainRes.noConfusion h
        | cons fr rest2 =>
          simp only [hcs] at h
          obtain ⟨blk0, hb0, hlt0⟩ := hfr fr rest2 hcs
          cases f with
          | zero => exact DrainRes.noConfusion h
          | succ f' =>
            simp only [drainF, hb0, if_pos hlt0] at h
            exact DrainRes.noConfusion h
    · rw [if_pos hlt] at h
      injection h with h
      exact Or.inl ⟨h.symm, blk, rfl, hlt⟩
    · rw [if_neg hlt] at h
      cases hq : s.blocks_to_eval with
      | cons next rest =>
        simp only [hq] at h
        by_cases hc : next = CONTINUE
        · rw [if_pos hc] at h
          have ih' := (ih { s with blocks_to_eval := rest }
            (by intro fr r hfr'; exact hfr fr r hfr')).2 h
          rcases ih' with ⟨hs', blk', hcb', hlt'⟩ | ⟨hall, hoor, fr, rest2, hcs, hs'⟩
          · exfalso
            simp only at hcb'
            rw [hcb] at hcb'
            injection hcb' with hcb'
            subst hcb'
            exact hlt hlt'
          · refine Or.inr ⟨?_, ⟨blk, rfl, hlt⟩, fr, rest2, hcs, ?_⟩
            · intro x hx
              rcases List.mem_cons.mp hx with rfl | hx
              · exact hc
              · exact hall x hx
            · rw [hs']
        · rw [if_neg hc] at h
          exact DrainRes.noConfusion h
      | nil =>
        simp only [hq] at h
        cases hcs : s.call_stack with
        | nil => simp only [hcs] at h; exact DrainRes.noConfusion h
        | cons fr rest2 =>
          simp only [hcs] at h
          obtain ⟨blk0, hb0, hlt0⟩ := hfr fr rest2 hcs
          cases f with
          | zero => exact DrainRes.noConfusion h
          | succ f' =>
            simp only [drainF, hb0, if_pos hlt0] at h
            injection h with h
            refine Or.inr ⟨by simp, ⟨blk, rfl, hlt⟩, fr, rest2, rfl, ?_⟩
            rw [← h, ← hq]

lemma drain_char (s s' : Prog)
    (hfr : ∀ fr rest, s.call_stack = fr :: rest →
      ∃ blk, s.code[fr.1]? = some blk ∧ fr.2 < blk.length) :
    (drain s = .contOuter s' →
      (∃ blk, s.code[s.ip.1]? = some blk ∧ ¬ s.ip.2 < blk.length) ∧
      ∃ pre q rest, s.blocks_to_eval = pre ++ q :: rest ∧
        (∀ x ∈ pre, x = CONTINUE) ∧ q ≠ CONTINUE ∧
        s' = { s with blocks_to_eval := rest, ip := (q, 0) }) ∧
    (drain s = .fall s' →
      (s' = s ∧ ∃ blk, s.code[s.ip.1]? = some blk ∧ s.ip.2 < blk.length) ∨
      ((∀ x ∈ s.blocks_to_eval, x = CONTINUE) ∧
        (∃ blk, s.code[s.ip.1]? = some blk ∧ ¬ s.ip.2 < blk.length) ∧
        ∃ fr rest, s.call_stack = fr :: rest ∧
          s' = { s with evaluating_side_effects := false,
                        blocks_to_eval := [], call_stack := rest, ip := fr })) := by
  unfold drain
  exact drainF_char _ s s' hfr

lemma steps_add_one (j : Nat) (m s' : Prog) (h : steps (j + 1) m = some s') :
    ∃ s, steps j m = some s ∧ step s = .next s' := by
  induction j generalizing m with
  | zero =>
    simp only [steps] at h
    cases hs : step m with
    | next m2 =>
      simp only [hs, steps] at h
      injection h with h
      subst h
      exact ⟨m, rfl, hs⟩
    | done m2 => simp only [hs] at h; exact Option.noConfusion h
    | err => simp only [hs] at h; exact Option.noConfusion h
  | succ j ih =>
    rw [show j + 1 + 1 = (j + 1) + 1 from rfl] at h
    simp only [steps] at h
    cases hs : step m with
    | next m2 =>
      simp only [hs] at h
      obtain ⟨s, h1, h2⟩ := ih m2 h
      refine ⟨s, ?_, h2⟩
      simp only [steps, hs]
      exact h1
    | done m2 => simp only [hs] at h; exact Option.noConfusion h
    | err => simp only [hs] at h; exact Option.noConfusion h

lemma sweep_step (C : List (List Instr)) (V0 : List DataVal) (t f : Nat)
    (fr0 : Nat × Nat) (cs0 : List (Nat × Nat)) (s s₂ : Prog)
    (hfr0 : ∃ blk0, C[fr0.1]? = some blk0 ∧ fr0.2 < blk0.length)
    (hInv : SweepInv C V0 t f fr0 cs0 s)
    (hstep : step s = .next s₂) :
    SweepInv C V0 t f fr0 cs0 s₂ ∨
    (s₂.evaluating_side_effects = false ∧ s₂.ip = (fr0.1, fr0.2 + 1) ∧
     s₂.call_stack = cs0 ∧
     (∀ b, Reach C [t, f] b → ∀ a, a ∈ storeAddrs (blockOf C b) →
       s₂.vars[a]? = some .Waiting) ∧
     (∀ a, (∀ b, Reach C [t, f] b → a ∉ storeAddrs (blockOf C b)) →
       s₂.vars[a]? = V0[a]?)) := by
  obtain ⟨hmode, hcode, hvlen, hrip, hqR, hcs, hmain, hunch⟩ := hInv
  have hfrS : ∀ fr rest,
      ({ s with cycles := s.cycles + 1 } : Prog).call_stack = fr :: rest →
      ∃ blkB, ({ s with cycles := s.cycles + 1 } : Prog).code[fr.1]? = some blkB ∧
        fr.2 < blkB.length := by
    intro fr rest h
    have h' : s.call_stack = fr :: rest := h
    rw [hcs] at h'
    injection h' with e1 e2
    subst e1
    obtain ⟨blk0, hb0, hl0⟩ := hfr0
    refine ⟨blk0, ?_, hl0⟩
    show s.code[fr0.1]? = some blk0
    rw [hcode]
    exact hb0
  unfold step at hstep
  cases hcb : s.code[s.ip.1]? with
  | none => simp only [hcb] at hstep; exact StepRes.noConfusion hstep
  | some blk =>
    simp only [hcb] at hstep
    have hblockOf : blockOf C s.ip.1 = blk := by
      unfold blockOf
      rw [← hcode, hcb]
      rfl
    by_cases hlen : blk.length ≤ s.ip.2
    · rw [if_pos hlen] at hstep
      by_cases hent : s.ip.1 = s.entrypoint
      · rw [if_pos hent] at hstep
        exact StepRes.noConfusion hstep
      · rw [if_neg hent] at hstep
        obtain ⟨hc9, hdr⟩ := execInstr_next_side s .Return s₂ hmode hstep
        have hsuf : suffixFrom C s.ip = [] := by
          unfold suffixFrom
          rw [hblockOf]
          exact List.drop_eq_nil_of_le hlen
        rcases hdr with hdr | ⟨m2, hdr, hsm⟩
        · obtain ⟨-, pre, q, rest, hdec, hpre, hqc, hs2⟩ :=
            (drain_char _ _ hfrS).1 hdr
          have hdec' : s.blocks_to_eval = pre ++ q :: rest := hdec
          left
          subst hs2
          have hqmem : q ∈ s.blocks_to_eval := by rw [hdec']; simp
          refine ⟨hmode, hcode, hvlen, ?_, ?_, hcs, ?_, ?_⟩
          · show Reach C [t, f] q
            rcases hqR q hqmem with h | h
            · exact absurd h hqc
            · exact h
          · show ∀ x ∈ rest, x = CONTINUE ∨ Reach C [t, f] x
            intro x hx
            refine hqR x ?_
            rw [hdec']
            exact List.mem_append_right _ (List.mem_cons_of_mem _ hx)
          · intro b hb a ha
            rcases hmain b hb a ha with hw | hsch
            · exact Or.inl hw
            · right
              show Sched C rest (suffixFrom C (q, 0)) a
              have hsufq : suffixFrom C ((q, 0) : Nat × Nat) = blockOf C q := by
                unfold suffixFrom
                simp
              rcases hsch with h1 | ⟨r, b', hr, hrb, hab⟩
              · rw [hsuf] at h1
                simp [storeAddrs] at h1
              · rcases hr with hr | hr
                · rw [hdec'] at hr
                  rcases List.mem_append.mp hr with hr | hr
                  · exact absurd hrb
                      (by rw [hpre r hr]; intro hcon; exact reach_continue C b' hcon)
                  · rcases List.mem_cons.mp hr with rfl | hr
                    · rcases reach_decomp C r b' hrb with rfl | ⟨t1, ht1, hne1, hr1⟩
                      · left
                        rw [hsufq]
                        exact hab
                      · exact Or.inr ⟨t1, b', Or.inr (by rw [hsufq]; exact ht1), hr1, hab⟩
                    · exact Or.inr ⟨r, b', Or.inl hr, hrb, hab⟩
                · rw [hsuf] at hr
                  simp [blockTargets] at hr
          · intro a h
            exact hunch a h
        · rcases (drain_char _ _ hfrS).2 hdr with
            ⟨hm2, blkB, hcb', hlt'⟩ | ⟨hall, -, fr, rest, hcs', hm2⟩
          · exfalso
            have e : s.code[s.ip.1]? = some blkB := hcb'
            rw [hcb] at e
            injection e with e
            subst e
            have : s.ip.2 < blk.length := hlt'
            omega
          · right
            have hcs'' : s.call_stack = fr :: rest := hcs'
            rw [hcs] at hcs''
            injection hcs'' with e1 e2
            subst e1
            subst e2
            rw [hm2] at hsm
            simp only [sideMatch] at hsm
            injection hsm with e
            subst e
            refine ⟨rfl, rfl, rfl, ?_, ?_⟩
            · intro b hb a ha
              rcases hmain b hb a ha with hw | hsch
              · exact hw
              · exfalso
                rcases hsch with h1 | ⟨r, b', hr, hrb, hab⟩
                · rw [hsuf] at h1
                  simp [storeAddrs] at h1
                · rcases hr with hr | hr
                  · rw [hall r hr] at hrb
                    exact reach_continue C b' hrb
                  · rw [hsuf] at hr
                    simp [blockTargets] at hr
            · intro a h
              exact hunch a h
    · rw [if_neg hlen] at hstep
      have hlt : s.ip.2 < blk.length := Nat.lt_of_not_le hlen
      cases hi : blk[s.ip.2]? with
      | none => simp only [hi] at hstep; exact StepRes.noConfusion hstep
      | some i =>
        simp only [hi] at hstep
        obtain ⟨hc9, hdr⟩ := execInstr_next_side s i s₂ hmode hstep
        have himem : i ∈ blk := List.getElem?_mem hi
        have hsufcons : suffixFrom C s.ip = i :: suffixFrom C (s.ip.1, s.ip.2 + 1) := by
          unfold suffixFrom
          show (blockOf C s.ip.1).drop s.ip.2 = i :: (blockOf C s.ip.1).drop (s.ip.2 + 1)
          rw [hblockOf]
          exact drop_cons_of_getElem? blk s.ip.2 i hi
        have htg : ∀ x, x ∈ instrTargets i → x ∈ blockTargets (blockOf C s.ip.1) := by
          intro x hx
          rw [hblockOf]
          unfold blockTargets
          exact List.mem_flatMap.mpr ⟨i, himem, hx⟩
        rcases hdr with hdr | ⟨m2, hdr, hsm⟩
        · obtain ⟨⟨blkB, hcb', hnlt⟩, -⟩ := (drain_char _ _ hfrS).1 hdr
          exfalso
          have e : s.code[s.ip.1]? = some blkB := hcb'
          rw [hcb] at e
          injection e with e
          subst e
          have : ¬ s.ip.2 < blk.length := hnlt
          omega
        · rcases (drain_char _ _ hfrS).2 hdr with
            ⟨hm2, -⟩ | ⟨-, ⟨blkB, hcb', hnlt⟩, -⟩
          · rw [hm2] at hsm
            rcases sideMatch_next_cases _ i s₂ hsm with
              ⟨i0, rfl, hbound, hs2⟩ | ⟨t', f', rfl, hs2⟩ | ⟨l, rfl, hs2⟩ |
              ⟨l, rfl, hs2⟩ | ⟨hn1, hn2, hn3, hn4, hs2⟩
            · -- StoreIdent
              left
              subst hs2
              have hbound' : i0 < s.vars.length := hbound
              have hi0mem : i0 ∈ storeAddrs (blockOf C s.ip.1) := by
                rw [hblockOf]
                unfold storeAddrs
                exact List.mem_filterMap.mpr ⟨.StoreIdent i0, himem, rfl⟩
              refine ⟨hmode, hcode, ?_, hrip, hqR, hcs, ?_, ?_⟩
              · show (s.vars.set i0 .Waiting).length = V0.length
                rw [List.length_set]
                exact hvlen
              · intro b hb a ha
                by_cases hai : a = i0
                · subst hai
                  left
                  show (s.vars.set a .Waiting)[a]? = some .Waiting
                  rw [List.getElem?_set_self (by omega)]
                · rcases hmain b hb a ha with hw | hsch
                  · left
                    show (s.vars.set i0 .Waiting)[a]? = some .Waiting
                    rw [List.getElem?_set_ne (by omega)]
                    exact hw
                  · right
                    show Sched C s.blocks_to_eval
                      (suffixFrom C (s.ip.1, s.ip.2 + 1)) a
                    rcases hsch with h1 | ⟨r, b', hr, hrb, hab⟩
                    · rw [hsufcons, storeAddrs_cons_store] at h1
                      rcases List.mem_cons.mp h1 with rfl | h1
                      · exact absurd rfl hai
                      · exact Or.inl h1
                    · refine Or.inr ⟨r, b', ?_, hrb, hab⟩
                      rcases hr with hr | hr
                      · exact Or.inl hr
                      · rw [hsufcons, blockTargets_cons,
                          show instrTargets (.StoreIdent i0) = [] from rfl,
                          List.nil_append] at hr
                        exact Or.inr hr
              · intro a hno
                have hai : a ≠ i0 := by
                  intro e
                  subst e
                  exact hno s.ip.1 hrip hi0mem
                show (s.vars.set i0 .Waiting)[a]? = V0[a]?
                rw [List.getElem?_set_ne (by omega)]
                exact hunch a hno
            · -- IfExpr
              left
              subst hs2
              refine ⟨hmode, hcode, hvlen, hrip, ?_, hcs, ?_, ?_⟩
              · show ∀ x ∈ f' :: t' :: s.blocks_to_eval, x = CONTINUE ∨ Reach C [t, f] x
                intro x hx
                rcases List.mem_cons.mp hx with rfl | hx
                · by_cases hxc : x = CONTINUE
                  · exact Or.inl hxc
                  · exact Or.inr (Reach.step hrip (htg x (by
                      rw [show instrTargets (.IfExpr t' x) = [t', x] from rfl]
                      simp)) hxc)
                · rcases List.mem_cons.mp hx with rfl | hx
                  · by_cases hxc : x = CONTINUE
                    · exact Or.inl hxc
                    · exact Or.inr (Reach.step hrip (htg x (by
                        rw [show instrTargets (.IfExpr x f') = [x, f'] from rfl]
                        simp)) hxc)
                  · exact hqR x hx
              · intro b hb a ha
                rcases hmain b hb a ha with hw | hsch
                · exact Or.inl hw
                · right
                  show Sched C (f' :: t' :: s.blocks_to_eval)
                    (suffixFrom C (s.ip.1, s.ip.2 + 1)) a
                  rcases hsch with h1 | ⟨r, b', hr, hrb, hab⟩
                  · rw [hsufcons, storeAddrs_cons_not_store _ _
                      (fun a' h' => Instr.noConfusion h')] at h1
                    exact Or.inl h1
                  · refine Or.inr ⟨r, b', ?_, hrb, hab⟩
                    rcases hr with hr | hr
                    · exact Or.inl (List.mem_cons_of_mem _ (List.mem_cons_of_mem _ hr))
                    · rw [hsufcons, blockTargets_cons,
                        show instrTargets (.IfExpr t' f') = [t', f'] from rfl] at hr
                      rcases List.mem_append.mp hr with hr | hr
                      · rcases List.mem_cons.mp hr with rfl | hr
                        · exact Or.inl (by simp)
                        · rcases List.mem_cons.mp hr with rfl | hr
                          · exact Or.inl (by simp)
                          · simp at hr
                      · exact Or.inr hr
              · intro a h
                exact hunch a h
            · -- Goto
              left
              subst hs2
              refine ⟨hmode, hcode, hvlen, hrip, ?_, hcs, ?_, ?_⟩
              · show ∀ x ∈ l :: s.blocks_to_eval, x = CONTINUE ∨ Reach C [t, f] x
                intro x hx
                rcases List.mem_cons.mp hx with rfl | hx
                · by_cases hxc : x = CONTINUE
                  · exact Or.inl hxc
                  · exact Or.inr (Reach.step hrip (htg x (by
                      rw [show instrTargets (.Goto x) = [x] from rfl]
                      simp)) hxc)
                · exact hqR x hx
              · intro b hb a ha
                rcases hmain b hb a ha with hw | hsch
                · exact Or.inl hw
                · right
                  show Sched C (l :: s.blocks_to_eval)
                    (suffixFrom C (s.ip.1, s.ip.2 + 1)) a
                  rcases hsch with h1 | ⟨r, b', hr, hrb, hab⟩
                  · rw [hsufcons, storeAddrs_cons_not_store _ _
                      (fun a' h' => Instr.noConfusion h')] at h1
                    exact Or.inl h1
                  · refine Or.inr ⟨r, b', ?_, hrb, hab⟩
                    rcases hr with hr | hr
                    · exact Or.inl (List.mem_cons_of_mem _ hr)
                    · rw [hsufcons, blockTargets_cons,
                        show instrTargets (.Goto l) = [l] from rfl] at hr
                      rcases List.mem_append.mp hr with hr | hr
                      · rcases List.mem_cons.mp hr with rfl | hr
                        · exact Or.inl (by simp)
                        · simp at hr
                      · exact Or.inr hr
              · intro a h
                exact hunch a h
            · -- Call
              left
              subst hs2
              refine ⟨hmode, hcode, hvlen, hrip, ?_, hcs, ?_, ?_⟩
              · show ∀ x ∈ l :: s.blocks_to_eval, x = CONTINUE ∨ Reach C [t, f] x
                intro x hx
                rcases List.mem_cons.mp hx with rfl | hx
                · by_cases hxc : x = CONTINUE
                  · exact Or.inl hxc
                  · exact Or.inr (Reach.step hrip (htg x (by
                      rw [show instrTargets (.Call x) = [x] from rfl]
                      simp)) hxc)
                · exact hqR x hx
              · intro b hb a ha
                rcases hmain b hb a ha with hw | hsch
                · exact Or.inl hw
                · right
                  show Sched C (l :: s.blocks_to_eval)
                    (suffixFrom C (s.ip.1, s.ip.2 + 1)) a
                  rcases hsch with h1 | ⟨r, b', hr, hrb, hab⟩
                  · rw [hsufcons, storeAddrs_cons_not_store _ _
                      (fun a' h' => Instr.noConfusion h')] at h1
                    exact Or.inl h1
                  · refine Or.inr ⟨r, b', ?_, hrb, hab⟩
                    rcases hr with hr | hr
                    · exact Or.inl (List.mem_cons_of_mem _ hr)
                    · rw [hsufcons, blockTargets_cons,
                        show instrTargets (.Call l) = [l] from rfl] at hr
                      rcases List.mem_append.mp hr with hr | hr
                      · rcases List.mem_cons.mp hr with rfl | hr
                        · exact Or.inl (by simp)
                        · simp at hr
                      · exact Or.inr hr
              · intro a h
                exact hunch a h
            · -- catch-all
              left
              subst hs2
              refine ⟨hmode, hcode, hvlen, hrip, hqR, hcs, ?_, ?_⟩
              · intro b hb a ha
                rcases hmain b hb a ha with hw | hsch
                · exact Or.inl hw
                · right
                  show Sched C s.blocks_to_eval
                    (suffixFrom C (s.ip.1, s.ip.2 + 1)) a
                  rcases hsch with h1 | ⟨r, b', hr, hrb, hab⟩
                  · rw [hsufcons, storeAddrs_cons_not_store _ _ hn1] at h1
                    exact Or.inl h1
                  · refine Or.inr ⟨r, b', ?_, hrb, hab⟩
                    rcases hr with hr | hr
                    · exact Or.inl hr
                    · rw [hsufcons, blockTargets_cons,
                        instrTargets_not_branch i hn2 hn3 hn4,
                        List.nil_append] at hr
                      exact Or.inr hr
              · intro a h
                exact hunch a h
          · exfalso
            have e : s.code[s.ip.1]? = some blkB := hcb'
            rw [hcb] at e
            injection e with e
            subst e
            have : ¬ s.ip.2 < blk.length := hnlt
            omega

/-- C2: speculative soundness.  From normal mode with an empty work queue,
executing an `IfExpr` whose popped condition is Waiting enters side-effect
mode; while that mode is active every `StoreIdent` writes Waiting to its
target.  If the sweep exits side-effect mode after `n` steps (the mode flag
is down again for the first time), then every address written by a
`StoreIdent` in any block of either syntactic arm (the blocks reachable
from the two branch targets through `IfExpr`/`Goto`/`Call` labels) holds
Waiting, every other address is unchanged, and execution resumes right
after the conditional with the pre-sweep call stack. -/
theorem speculative_soundness (m m' : Prog) (t f : Nat) (n : Nat)
    (hmode : m.evaluating_side_effects = false)
    (hq0 : m.blocks_to_eval = [])
    (hfetch : fetchInstr m = some (.IfExpr t f))
    (hwait : ∃ rest, m.eval_stack = .Waiting :: rest)
    (ht : t ≠ CONTINUE)
    (hn : 0 < n)
    (hsteps : steps n m = some m')
    (hmid : ∀ k mk, 0 < k → k < n → steps k m = some mk →
      mk.evaluating_side_effects = true)
    (hexit : m'.evaluating_side_effects = false) :
    (∀ b, Reach m.code [t, f] b → ∀ a, a ∈ storeAddrs (blockOf m.code b) →
      m'.vars[a]? = some .Waiting) ∧
    (∀ a, (∀ b, Reach m.code [t, f] b → a ∉ storeAddrs (blockOf m.code b)) →
      m'.vars[a]? = m.vars[a]?) ∧
    m'.ip = (m.ip.1, m.ip.2 + 1) ∧
    m'.call_stack = m.call_stack := by
  obtain ⟨rest0, hwait⟩ := hwait
  obtain ⟨n', rfl⟩ : ∃ n', n = n' + 1 := ⟨n - 1, by omega⟩
  -- the frame the sweep will pop points at the IfExpr, in range
  have hfr0 : ∃ blk0, m.code[m.ip.1]? = some blk0 ∧ m.ip.2 < blk0.length := by
    unfold fetchInstr at hfetch
    cases hcb : m.code[m.ip.1]? with
    | none => rw [hcb] at hfetch; simp at hfetch
    | some blk =>
      rw [hcb] at hfetch
      simp only [Option.bind_eq_bind, Option.some_bind] at hfetch
      exact ⟨blk, rfl, (List.getElem?_eq_some_iff.mp hfetch).1⟩
  -- the first step enters side-effect mode
  have hs1ex : ∃ s1, step m = .next s1 ∧ steps n' s1 = some m' := by
    simp only [steps] at hsteps
    cases hs : step m with
    | next s1 => simp only [hs] at hsteps; exact ⟨s1, rfl, hsteps⟩
    | done s1 => simp only [hs] at hsteps; exact Option.noConfusion hsteps
    | err => simp only [hs] at hsteps; exact Option.noConfusion hsteps
  obtain ⟨s1, hstep1, hrest⟩ := hs1ex
  have hstep1' : execInstr m (.IfExpr t f) = .next s1 := by
    rw [← step_fetch m _ hfetch]
    exact hstep1
  obtain ⟨hc9, hne1⟩ := execInstr_next_norm m _ s1 hmode hstep1'
  have hs1 : s1 = { m with cycles := m.cycles + 1, eval_stack := rest0, evaluating_side_effects := true, call_stack := m.ip :: m.call_stack, ip := (t, 0), blocks_to_eval := f :: m.blocks_to_eval } := by
    simp only [normalExec, hwait] at hne1
    injection hne1 with e
    exact e.symm
  -- base invariant after the first step
  have hbase : SweepInv m.code m.vars t f m.ip m.call_stack s1 := by
    rw [hs1]
    refine ⟨rfl, rfl, rfl, ?_, ?_, rfl, ?_, fun a _ => rfl⟩
    · show Reach m.code [t, f] t
      exact Reach.root (by simp) ht
    · show ∀ x ∈ f :: m.blocks_to_eval, x = CONTINUE ∨ Reach m.code [t, f] x
      intro x hx
      rw [hq0] at hx
      rcases List.mem_cons.mp hx with rfl | hx
      · by_cases hxc : x = CONTINUE
        · exact Or.inl hxc
        · exact Or.inr (Reach.root (by simp) hxc)
      · simp at hx
    · intro b hb a ha
      right
      show Sched m.code (f :: m.blocks_to_eval) (suffixFrom m.code (t, 0)) a
      have hsuft : suffixFrom m.code ((t, 0) : Nat × Nat) = blockOf m.code t := by
        unfold suffixFrom
        simp
      rcases reach_split _ _ _ _ hb with hbt | hbf
      · rcases reach_decomp _ _ _ hbt with rfl | ⟨t1, ht1, hne1', hr1⟩
        · left
          rw [hsuft]
          exact ha
        · exact Or.inr ⟨t1, b, Or.inr (by rw [hsuft]; exact ht1), hr1, ha⟩
      · exact Or.inr ⟨f, b, Or.inl (by simp), hbf, ha⟩
  -- the invariant propagates while the mode stays up
  have hinv : ∀ j sj, 0 < j → j < n' + 1 → steps j m = some sj →
      SweepInv m.code m.vars t f m.ip m.call_stack sj := by
    intro j
    induction j with
    | zero => intro sj h1 _ _; omega
    | succ j ih =>
      intro sj hpos hlt hsj
      cases Nat.eq_zero_or_pos j with
      | inl h0 =>
        subst h0
        simp only [steps, hstep1] at hsj
        injection hsj with e
        rw [← e]
        exact hbase
      | inr hposj =>
        obtain ⟨s, hsQ, hstepQ⟩ := steps_add_one j m sj hsj
        have hIs := ih s hposj (by omega) hsQ
        rcases sweep_step _ _ _ _ _ _ s sj hfr0 hIs hstepQ with h | h
        · exact h
        · exact absurd (hmid (j + 1) sj hpos hlt hsj) (by rw [h.1]; simp)
  obtain ⟨slast, hslast, hsteplast⟩ := steps_add_one n' m m' hsteps
  cases Nat.eq_zero_or_pos n' with
  | inl h0 =>
    subst h0
    simp only [steps] at hslast
    injection hslast with e
    subst e
    rw [hstep1] at hsteplast
    injection hsteplast with e
    rw [← e] at hexit
    rw [hs1] at hexit
    simp at hexit
  | inr hpos' =>
    have hIlast := hinv n' slast hpos' (by omega) hslast
    rcases sweep_step _ _ _ _ _ _ slast m' hfr0 hIlast hsteplast with h | h
    · obtain ⟨hm, -⟩ := h
      rw [hm] at hexit
      simp at hexit
    · obtain ⟨-, hip, hcs', hwaits, hunch'⟩ := h
      exact ⟨hwaits, hunch', hip, hcs'⟩

def sweepM : Prog := { emptyProg with code := [[.LoadConst .Waiting, .IfExpr 1 2], [.LoadConst (.Integer 5), .StoreIdent 0], [.LoadConst (.Integer 7), .StoreIdent 1]], ip := (0, 1), eval_stack := [.Waiting], vars := [.Integer 0, .Integer 0, .Integer 9] }

def sweepMRes : Prog := { emptyProg with code := [[.LoadConst .Waiting, .IfExpr 1 2], [.LoadConst (.Integer 5), .StoreIdent 0], [.LoadConst (.Integer 7), .StoreIdent 1]], ip := (0, 2), vars := [.Waiting, .Waiting, .Integer 9], cycles := 7 }

theorem speculative_soundness_witness :
    steps 7 sweepM = some sweepMRes ∧
    sweepMRes.vars[0]? = some .Waiting ∧
    sweepMRes.vars[1]? = some .Waiting ∧
    sweepMRes.vars[2]? = sweepM.vars[2]? ∧
    sweepMRes.ip = (sweepM.ip.1, sweepM.ip.2 + 1) ∧
    sweepMRes.call_stack = sweepM.call_stack := by
  have h := speculative_soundness sweepM sweepMRes 1 2 7 rfl rfl rfl ⟨[], rfl⟩
    (by decide) (by decide) rfl
    (by
      intro k mk h1 h2 h3
      interval_cases k <;> (injection h3 with e; rw [← e]; try rfl))
    rfl
  refine ⟨rfl, ?_, ?_, ?_, h.2.2.1, h.2.2.2⟩
  · exact h.1 1 (Reach.root (by decide) (by decide)) 0 (by decide)
  · exact h.1 2 (Reach.root (by decide) (by decide)) 1 (by decide)
  · refine h.2.1 2 ?_
    intro b hb
    have hbc : b = 1 ∨ b = 2 := by
      induction hb with
      | root hm hne => simpa using hm
      | step hr htgt hne ih =>
        rcases ih with rfl | rfl
        · rw [show blockTargets (blockOf sweepM.code 1) = [] from rfl] at htgt
          simp at htgt
        · rw [show blockTargets (blockOf sweepM.code 2) = [] from rfl] at htgt
          simp at htgt
    rcases hbc with rfl | rfl
    · decide
    · decide

lemma structOK_no_waiting (st : StructDef) (hok : structOK st = true)
    (kv : String × Nat) (hm : kv ∈ st.names) : kv.1 ≠ "$waiting" := by
  simp only [structOK, Bool.and_eq_true, decide_eq_true_eq, List.all_eq_true] at hok
  have := hok.1.2 kv hm
  simp only [Bool.and_eq_true, decide_eq_true_eq, bne_iff_ne, ne_eq] at this
  exact this.2

/-- C8 (amended): serialization emits `{"$waiting": true}` exactly when the
parameter's static `DataType` recorded at emission is `Waiting`: under the
Waiting type the runtime value is ignored and the sentinel always comes
out; under every other static type (`Integer`, `Float`, `Bool`, `String`,
`Array _`, `Struct _`) a Waiting runtime value makes serialization panic;
and over a consistent struct table (no field is named `"$waiting"`, as
identifiers cannot contain `$`) no value of a non-Waiting static type ever
serializes to the sentinel object. -/
theorem waiting_type_serializes_waiting :
    (∀ fuel us v, 1 ≤ fuel → serializeTV fuel us .Waiting v = some waitingJson) ∧
    (∀ fuel us ty, ty ≠ .Waiting → serializeTV fuel us ty .Waiting = none) ∧
    (∀ fuel us ty v, (∀ nm st, us.lookup nm = some st → structOK st = true) →
      serializeTV fuel us ty v = some waitingJson → ty = .Waiting) := by
  refine ⟨?_, ?_, ?_⟩
  · intro fuel us v hf
    cases fuel with
    | zero => omega
    | succ k => cases v <;> rfl
  · intro fuel us ty hty
    cases fuel with
    | zero => rfl
    | succ k =>
      cases ty with
      | Waiting => exact absurd rfl hty
      | Integer => rfl
      | Float => rfl
      | Bool => rfl
      | String => rfl
      | Array el => rfl
      | Struct name => rfl
  · intro fuel us ty v htab h
    cases fuel with
    | zero => exact Option.noConfusion h
    | succ k =>
      cases ty with
      | Waiting => rfl
      | Integer => cases v <;> simp [serializeTV, waitingJson] at h
      | Float => cases v <;> simp [serializeTV, waitingJson] at h
      | Bool => cases v <;> simp [serializeTV, waitingJson] at h
      | String => cases v <;> simp [serializeTV, waitingJson] at h
      | Array el => cases v <;> simp [serializeTV, waitingJson] at h
      | Struct name =>
        exfalso
        cases v <;> simp only [serializeTV] at h
        case Compound l =>
          cases hlu : us.lookup name with
          | none => simp only [hlu] at h; exact Option.noConfusion h
          | some st =>
            simp only [hlu] at h
            obtain ⟨entries, hmapm, hobj⟩ := Option.map_eq_some'.mp h
            injection hobj with hobj
            have hmem : ("$waiting", Json.bool true) ∈ entries := by
              rw [hobj]
              simp [waitingJson]
            obtain ⟨p, hp, hpe⟩ := mapM_mem_preimage _ _ _ hmapm _ hmem
            simp only [serStructEntry, Option.bind_eq_bind] at hpe
            cases hf : st.names.find? (fun kv => kv.2 == p.1) with
            | none => simp only [hf] at hpe; exact Option.noConfusion hpe
            | some kv =>
              simp only [hf, Option.some_bind] at hpe
              cases hti : st.types[p.1]? with
              | none => simp only [hti] at hpe; exact Option.noConfusion hpe
              | some tyi =>
                simp only [hti, Option.some_bind] at hpe
                cases hser : serializeTV k us tyi p.2 with
                | none => simp only [hser] at hpe; exact Option.noConfusion hpe
                | some j =>
                  simp only [hser, Option.some_bind] at hpe
                  injection hpe with hpe
                  have hkvmem : kv ∈ st.names := List.mem_of_find?_eq_some hf
                  have hok := htab name st hlu
                  exact structOK_no_waiting st hok kv hkvmem
                    (congrArg Prod.fst hpe)
        all_goals exact Option.noConfusion h

/-- Witness for the amended C8: the sentinel at Waiting type, panics at a
sample of other static types with a Waiting value, and the exclusivity
direction instantiated. -/
theorem waiting_type_serializes_waiting_witness :
    serializeTV 1 [] .Waiting (.Integer 7) = some waitingJson ∧
    serializeTV 1 [] .Float .Waiting = none ∧
    serializeTV 2 [] (.Array .Integer) .Waiting = none ∧
    DataType.Waiting = DataType.Waiting :=
  ⟨waiting_type_serializes_waiting.1 1 [] (.Integer 7) (by decide),
   waiting_type_serializes_waiting.2.1 1 [] .Float (by intro h; exact DataType.noConfusion h),
   waiting_type_serializes_waiting.2.1 2 [] (.Array .Integer) (by intro h; exact DataType.noConfusion h),
   waiting_type_serializes_waiting.2.2 1 [] .Waiting (.Integer 7)
     (by intro nm st h; exact Option.noConfusion h) rfl⟩
